import Mathlib

/-!
Verification of the Emirates ID field-extraction and validation pipeline of
this repository (`services/ocr_service.py` and `services/validation_service.py`).

Modelling conventions.
* Strings are modelled as `List Char` (accessed through `String.data`);
  the Python `re` patterns used by the code are embedded as deterministic
  or explicitly backtracking matchers that follow the engine's
  leftmost-match and alternation-preference semantics for the concrete
  patterns appearing in the source.
* The character classes are modelled on the fragment the code exercises:
  regex class `\d` is the ASCII digits, `\s` is the ASCII whitespace set plus
  the common extra Unicode whitespace code points, `\w` is ASCII
  alphanumerics, the underscore and the Arabic block (the letters the code
  actually matches).  Under `re.IGNORECASE` the classes `[A-Z]` and `[a-z]`
  both become the ASCII letters.
* Confidence arithmetic uses `ℚ` in place of IEEE doubles; every weight in
  the code is a small decimal fraction on which the two agree.
* The f-string diagnostic messages pushed into `errors` / `warnings` are
  modelled by the inductive type `Msg`, one constructor per format string
  of the source, carrying the interpolated value.
* All scanning recursions carry an explicit fuel equal to the length of the
  scanned list, so that every definition is a computable structural
  recursion on which concrete inputs evaluate inside the kernel.
-/

set_option maxRecDepth 4000

namespace BookingForms

/-- Python regex class `\s`: ASCII whitespace plus the common extra Unicode
whitespace code points recognized by `str` patterns. -/
def pyIsSpace (c : Char) : Bool :=
  c = ' ' || c = '\t' || c = '\n' || c = '\x0b' || c = '\x0c' || c = '\x0d' ||
  c.val = 0x1c || c.val = 0x1d || c.val = 0x1e || c.val = 0x1f ||
  c.val = 0x85 || c.val = 0xa0

/-- A code point of the Arabic block `؀`-`ۿ` (used by the
`arabic_pattern` of `_parse_front_side` and, as letters, by `\w`). -/
def isArabicChar (c : Char) : Bool :=
  0x600 ≤ c.val ∧ c.val ≤ 0x6ff

/-- Python regex class `\w` on the alphabet the code exercises: ASCII
alphanumerics, the underscore and the Arabic block. -/
def isWordChar (c : Char) : Bool :=
  c.isAlphanum || c = '_' || isArabicChar c

/-- Model of `str.lower` on the ASCII fragment. -/
def lowerL (cs : List Char) : List Char := cs.map Char.toLower

/-- Model of `s.replace(' ', '-')`: only the plain space U+0020 is replaced. -/
def spaceDash (cs : List Char) : List Char :=
  cs.map fun c => if c = ' ' then '-' else c

/-- Model of `needle in hay` for Python strings: substring containment. -/
def isPrefixL : List Char → List Char → Bool
  | [], _ => true
  | _ :: _, [] => false
  | a :: as, b :: bs => a = b && isPrefixL as bs

/-- Model of `needle in hay` (Python substring test). -/
def strContainsL (needle : List Char) : List Char → Bool
  | [] => isPrefixL needle []
  | c :: cs => isPrefixL needle (c :: cs) || strContainsL needle cs

/-- Model of `\d{n}`: exactly `n` ASCII digits; returns the digits and the rest. -/
def takeDigits : Nat → List Char → Option (List Char × List Char)
  | 0, cs => some ([], cs)
  | _ + 1, [] => none
  | n + 1, c :: cs =>
      if c.isDigit then (takeDigits n cs).map (fun p => (c :: p.1, p.2))
      else none

/-- One optional separator `[-\s]?`.  The quantifier is greedy; a separator
character can never start a digit group, so the regex never benefits from
backtracking at this point and the greedy choice is definitive. -/
def sepOpt : List Char → List Char × List Char
  | [] => ([], [])
  | c :: rest => if c = '-' || pyIsSpace c then ([c], rest) else ([], c :: rest)

/-- The ID pattern `784[-\s]?\d{4}[-\s]?\d{7}[-\s]?\d{1}` matched at the head
of the list (`re` anchors matches at a position and extends to the right);
returns the matched characters and the remainder. -/
def matchIdCore (cs : List Char) : Option (List Char × List Char) :=
  match cs with
  | a :: b :: c :: r0 =>
      if a = '7' ∧ b = '8' ∧ c = '4' then
        match sepOpt r0 with
        | (s1, r1) =>
          match takeDigits 4 r1 with
          | none => none
          | some (d1, r2) =>
            match sepOpt r2 with
            | (s2, r3) =>
              match takeDigits 7 r3 with
              | none => none
              | some (d2, r4) =>
                match sepOpt r4 with
                | (s3, r5) =>
                  match takeDigits 1 r5 with
                  | none => none
                  | some (d3, r6) =>
                      some ('7' :: '8' :: '4' ::
                        (s1 ++ (d1 ++ (s2 ++ (d2 ++ (s3 ++ d3))))), r6)
      else none
  | _ => none

/-- Model of `re.search` for the ID pattern: first position (leftmost) at which the
pattern matches. -/
def searchIdL : List Char → Option (List Char)
  | [] => none
  | c :: cs =>
      match matchIdCore (c :: cs) with
      | some (m, _) => some m
      | none => searchIdL cs

/-- Model of `ID_NUMBER_PATTERN.match` with the `^...$` anchors: the whole string must
be consumed (Python `$` also tolerates one final newline). -/
def idFullMatch (cs : List Char) : Bool :=
  match matchIdCore cs with
  | some (_, rest) => rest = [] || rest = ['\n']
  | none => false

/-- Model of `\d{1,2}` candidates, greedy preference order (two digits first). -/
def digits12 (cs : List Char) : List (List Char × List Char) :=
  (match takeDigits 2 cs with | some p => [p] | none => []) ++
  (match takeDigits 1 cs with | some p => [p] | none => [])

/-- A date separator: a slash or a dash. -/
def dateSep : List Char → Option (Char × List Char)
  | [] => none
  | c :: rest => if c = '/' || c = '-' then some (c, rest) else none

/-- The date pattern `\d{1,2}` slash-or-dash `\d{1,2}` slash-or-dash `\d{4}`
(the source's `date_pattern`) matched at the head of the list, with the regex
engine's backtracking over the two `\d{1,2}` groups; returns the matched
characters and the remainder. -/
def matchDateCore (cs : List Char) : Option (List Char × List Char) :=
  (digits12 cs).findSome? fun p =>
    match dateSep p.2 with
    | none => none
    | some (s1, r1) =>
        (digits12 r1).findSome? fun q =>
          match dateSep q.2 with
          | none => none
          | some (s2, r2) =>
              match takeDigits 4 r2 with
              | none => none
              | some (y, r3) => some (p.1 ++ s1 :: (q.1 ++ s2 :: y), r3)

/-- Model of `re.findall` for the date pattern: left-to-right scan collecting
non-overlapping matches, resuming after each match (fuelled recursion;
the wrapper `findDatesL` supplies sufficient fuel). -/
def findDatesF : Nat → List Char → List (List Char)
  | 0, _ => []
  | _ + 1, [] => []
  | fuel + 1, c :: cs =>
      match matchDateCore (c :: cs) with
      | some (m, _) => m :: findDatesF fuel (cs.drop (m.length - 1))
      | none => findDatesF fuel cs

/-- Model of `re.findall(date_pattern, raw_text)`. -/
def findDatesL (cs : List Char) : List (List Char) :=
  findDatesF cs.length cs

/-- A case-insensitive literal (the literal is given lower-cased, the text
character is lowered before comparison, per `re.IGNORECASE`); returns the
remainder after the literal. -/
def litCI (lit : List Char) (cs : List Char) : Option (List Char) :=
  if (cs.take lit.length).map Char.toLower = lit then some (cs.drop lit.length)
  else none

/-- Model of `[A-Z][a-z]+` under `re.IGNORECASE`: both classes are the ASCII letters,
so the group consumes a maximal letter run which must have length at least
two (one `[A-Z]` character plus a nonempty `[a-z]+`); the run is followed by
whitespace or the pattern end, so the greedy choice is definitive. -/
def capWord (cs : List Char) : Option (List Char × List Char) :=
  let t := cs.takeWhile Char.isAlpha
  if 2 ≤ t.length then some (t, cs.dropWhile Char.isAlpha) else none

/-- Model of `\s+`: a maximal nonempty whitespace run. -/
def wsPlus (cs : List Char) : Option (List Char × List Char) :=
  let t := cs.takeWhile pyIsSpace
  if t.isEmpty then none else some (t, cs.dropWhile pyIsSpace)

/-- Model of `[:\s]+`: a maximal nonempty run of colons and whitespace. -/
def gapPlus (cs : List Char) : Option (List Char × List Char) :=
  let t := cs.takeWhile fun c => c = ':' || pyIsSpace c
  if t.isEmpty then none else some (t, cs.dropWhile fun c => c = ':' || pyIsSpace c)

/-- Model of `(?:\s+[A-Z][a-z]+)*`-style greedy continuation of a capitalized
multi-word sequence: repeatedly consume whitespace plus a further word while
possible (fuelled; wrappers supply fuel equal to the list length). -/
def moreWordsF : Nat → List Char → List Char × List Char
  | 0, cs => ([], cs)
  | fuel + 1, cs =>
      match wsPlus cs with
      | none => ([], cs)
      | some (w, r1) =>
          match capWord r1 with
          | none => ([], cs)
          | some (t, r2) =>
              let m := moreWordsF fuel r2
              (w ++ t ++ m.1, m.2)

/-- The captured group `[A-Z][a-z]+(?:\s+[A-Z][a-z]+)+` (at least two words):
first word, then one required whitespace-plus-word, then the greedy
continuation. -/
def capGroup (cs : List Char) : Option (List Char) :=
  match capWord cs with
  | none => none
  | some (w1, r1) =>
      match wsPlus r1 with
      | none => none
      | some (g, r2) =>
          match capWord r2 with
          | none => none
          | some (w2, r3) => some (w1 ++ g ++ w2 ++ (moreWordsF r3.length r3).1)

/-- The continuation of the first name pattern after its
`(?:name|اسم)` label: `[:\s]+` then the captured group. -/
def nameAfterLabel (r0 : List Char) : Option (List Char) :=
  match gapPlus r0 with
  | none => none
  | some (_, r1) => capGroup r1

/-- The first name pattern `(?:name|اسم)[:\s]+(group)` attempted at one
position (alternatives in the pattern's order, with backtracking between
them). -/
def matchName1At (cs : List Char) : Option (List Char) :=
  (match litCI "name".data cs with
   | some r0 => nameAfterLabel r0
   | none => none) <|>
  (match litCI "اسم".data cs with
   | some r0 => nameAfterLabel r0
   | none => none)

/-- Model of `re.search` of the first name pattern: leftmost matching position. -/
def searchName1 : List Char → Option (List Char)
  | [] => none
  | c :: cs => matchName1At (c :: cs) <|> searchName1 cs

/-- Python `str.strip()` on the modelled whitespace set. -/
def trimL (cs : List Char) : List Char :=
  ((cs.dropWhile pyIsSpace).reverse.dropWhile pyIsSpace).reverse

/-- The name extraction loop of `_parse_front_side`: first pattern
(label-guided, searched anywhere) wins over the second (`^`-anchored bare
group, which `re.search` without `re.MULTILINE` only tries at position 0);
the matched group is stripped. -/
def extractName (cs : List Char) : Option (List Char) :=
  match searchName1 cs with
  | some g => some (trimL g)
  | none => (capGroup cs).map trimL

/-- Maximal runs of characters satisfying `p` (the semantics of
`re.findall` for a pattern that is a single positive character class with
`+`), fuelled. -/
def runsOfF (p : Char → Bool) : Nat → List Char → List (List Char)
  | 0, _ => []
  | _ + 1, [] => []
  | fuel + 1, c :: cs =>
      if p c then (c :: cs.takeWhile p) :: runsOfF p fuel (cs.dropWhile p)
      else runsOfF p fuel cs

/-- Model of `re.findall` of a one-class-plus pattern. -/
def runsOf (p : Char → Bool) (cs : List Char) : List (List Char) :=
  runsOfF p cs.length cs

/-- Python `max(xs, key=len)`: the first element of maximal length (later
elements replace the current one only when strictly longer). -/
def pyMaxByLen : List (List Char) → List Char
  | [] => []
  | x :: xs => xs.foldl (fun b y => if b.length < y.length then y else b) x

/-- The `nationality_keywords` list of `_parse_front_side`. -/
def nationality_keywords : List String :=
  ["Filipino", "Indian", "Pakistani", "Bangladeshi", "Egyptian", "Lebanese"]

/-- A word-bounded alternation attempted at one position:
`\b(alt1|alt2|...)\b` with `re.IGNORECASE` (existence only).  `prevW` says
whether the previous character is a word character. -/
def wbMatchAt (alts : List (List Char)) (prevW : Bool) (cs : List Char) : Bool :=
  !prevW && alts.any fun a =>
    match litCI a cs with
    | some rest =>
        match rest with
        | [] => true
        | r :: _ => !isWordChar r
    | none => false

/-- Model of `re.search` for a word-bounded alternation (existence). -/
def wbSearch (alts : List (List Char)) : Bool → List Char → Bool
  | _, [] => false
  | prevW, c :: cs => wbMatchAt alts prevW (c :: cs) || wbSearch alts (isWordChar c) cs

/-- The tail of the issue-date pattern after its label: `[:\s]+` then the
captured date group. -/
def issueTail (r0 : List Char) : Option (List Char) :=
  match gapPlus r0 with
  | none => none
  | some (_, r1) => (matchDateCore r1).map Prod.fst

/-- The issue-date pattern `(?:issue|issued|تاريخ\s*الإصدار)[:\s]+(date)`
attempted at one position (alternatives in order, with backtracking). -/
def matchIssueAt (cs : List Char) : Option (List Char) :=
  (match litCI "issue".data cs with
   | some r => issueTail r
   | none => none) <|>
  (match litCI "issued".data cs with
   | some r => issueTail r
   | none => none) <|>
  (match litCI "تاريخ".data cs with
   | some r =>
       match litCI "الإصدار".data (r.dropWhile pyIsSpace) with
       | some r2 => issueTail r2
       | none => none
   | none => none)

/-- Model of `re.search` of the issue-date pattern. -/
def searchIssue : List Char → Option (List Char)
  | [] => none
  | c :: cs => matchIssueAt (c :: cs) <|> searchIssue cs

/-- The `FieldMap` produced by extraction: one optional string per semantic
field, a key being present only when extracted (`data[k] = v`). -/
structure FieldMap where
  idNumber : Option String := none
  name : Option String := none
  nameArabic : Option String := none
  nationality : Option String := none
  dateOfBirth : Option String := none
  gender : Option String := none
  expiryDate : Option String := none
  issueDate : Option String := none
  cardNumber : Option String := none
deriving DecidableEq

/-- Model of `OCRService._parse_front_side` (the `ocr_results` parameter is unused by
the source; extraction works on the concatenated raw text). -/
def parse_front_side (raw_text : String) : FieldMap :=
  let cs := raw_text.data
  let dates := (findDatesL cs).map String.mk
  let dobExp : Option String × Option String :=
    match dates with
    | d1 :: d2 :: _ => (some d1, some d2)
    | [d1] =>
        if strContainsL "expiry".data (lowerL cs) || strContainsL "exp".data (lowerL cs)
        then (none, some d1) else (some d1, none)
    | [] => (none, none)
  let arabicRuns := runsOf (fun c => isArabicChar c || pyIsSpace c) cs
  let arabicName := trimL (pyMaxByLen arabicRuns)
  { idNumber := (searchIdL cs).map fun m => String.mk (spaceDash m)
    name := (extractName cs).map String.mk
    nameArabic :=
      if arabicRuns ≠ [] ∧ 3 < arabicName.length then some (String.mk arabicName) else none
    nationality :=
      nationality_keywords.find? fun k => strContainsL (lowerL k.data) (lowerL cs)
    dateOfBirth := dobExp.1
    gender :=
      if wbSearch ["male".data, "m".data, "ذكر".data] false cs then some "Male"
      else if wbSearch ["female".data, "f".data, "أنثى".data] false cs then some "Female"
      else none
    expiryDate := dobExp.2
    issueDate := (searchIssue cs).map String.mk
    cardNumber := none }

/-- The scan of `re.findall` for the card-number pattern
`\b\d{9,}\b`: at a position with a word boundary (`prevW` false) and a
digit, the greedy `\d{9,}` consumes the maximal digit run; shortening it by
backtracking can never restore the trailing `\b` (the boundary would fall
between two digits), so the run matches exactly when it has length at least
nine and its right neighbour, if any, is not a word character.  Fuelled;
`cardScan` supplies the fuel. -/
def cardScanF : Nat → Bool → List Char → List (List Char)
  | 0, _, _ => []
  | _ + 1, _, [] => []
  | fuel + 1, prevW, c :: cs =>
      if !prevW && c.isDigit then
        let run := c :: cs.takeWhile Char.isDigit
        let rest := cs.dropWhile Char.isDigit
        if 9 ≤ run.length &&
            (match rest with | [] => true | r :: _ => !isWordChar r) then
          run :: cardScanF fuel true rest
        else cardScanF fuel (isWordChar c) cs
      else cardScanF fuel (isWordChar c) cs

/-- Model of `re.findall(card_number_pattern, raw_text)`. -/
def cardScan (cs : List Char) : List (List Char) :=
  cardScanF cs.length false cs

/-- Model of `OCRService._parse_back_side`. -/
def parse_back_side (raw_text : String) : FieldMap :=
  let cs := raw_text.data
  let cards := cardScan cs
  { cardNumber :=
      match cards with
      | [] => none
      | _ => some (String.mk (pyMaxByLen cards))
    idNumber := (searchIdL cs).map fun m => String.mk (spaceDash m) }

/-! ### Validation service (`services/validation_service.py`) -/

/-- A Python `datetime`: a calendar date plus a time-of-day (as an abstract
nonnegative quantity; `strptime` with a date-only format yields time 0,
`datetime.now()` has an arbitrary time). -/
structure PyDateTime where
  year : Nat
  month : Nat
  day : Nat
  time : ℚ
deriving DecidableEq

/-- Model of `datetime` comparison: lexicographic on (year, month, day, time). -/
def PyDateTime.ltB (a b : PyDateTime) : Bool :=
  if a.year < b.year then true
  else if b.year < a.year then false
  else if a.month < b.month then true
  else if b.month < a.month then false
  else if a.day < b.day then true
  else if b.day < a.day then false
  else a.time < b.time

/-- Gregorian leap year as used by `datetime`. -/
def isLeap (y : Nat) : Bool :=
  y % 4 = 0 && (y % 100 ≠ 0 || y % 400 = 0)

/-- Days in a month (`datetime`'s calendar). -/
def daysInMonth (y m : Nat) : Nat :=
  if m = 2 then (if isLeap y then 29 else 28)
  else if m = 4 || m = 6 || m = 9 || m = 11 then 30 else 31

/-- The `datetime(year, month, day)` constructor check performed by
`strptime` after the regex has committed: year at least `MINYEAR`, month
and day within range. -/
def mkDateChecked (d m y : Nat) : Option PyDateTime :=
  if 1 ≤ y ∧ 1 ≤ m ∧ m ≤ 12 ∧ 1 ≤ d ∧ d ≤ daysInMonth y m then
    some ⟨y, m, d, 0⟩
  else none

/-- Numeric value of a digit list. -/
def digitsVal (cs : List Char) : Nat :=
  cs.foldl (fun a c => a * 10 + (c.toNat - 48)) 0

/-- CPython `_strptime`'s regex fragment for `%d`:
`3[01]`, `[12]\d`, `0[1-9]` or `[1-9]`, candidates in that preference
order. -/
def parseDayTok (cs : List Char) : List (Nat × List Char) :=
  (match cs with
   | '3' :: c :: r => if c = '0' || c = '1' then [(30 + (c.toNat - 48), r)] else []
   | _ => []) ++
  (match cs with
   | a :: b :: r =>
       if (a = '1' || a = '2') && b.isDigit then
         [((a.toNat - 48) * 10 + (b.toNat - 48), r)]
       else []
   | _ => []) ++
  (match cs with
   | '0' :: b :: r => if '1' ≤ b && b ≤ '9' then [(b.toNat - 48, r)] else []
   | _ => []) ++
  (match cs with
   | a :: r => if '1' ≤ a && a ≤ '9' then [(a.toNat - 48, r)] else []
   | _ => [])

/-- CPython `_strptime`'s regex fragment for `%m`:
`1[0-2]`, `0[1-9]` or `[1-9]`, in preference order. -/
def parseMonTok (cs : List Char) : List (Nat × List Char) :=
  (match cs with
   | '1' :: b :: r => if '0' ≤ b && b ≤ '2' then [(10 + (b.toNat - 48), r)] else []
   | _ => []) ++
  (match cs with
   | '0' :: b :: r => if '1' ≤ b && b ≤ '9' then [(b.toNat - 48, r)] else []
   | _ => []) ++
  (match cs with
   | a :: r => if '1' ≤ a && a ≤ '9' then [(a.toNat - 48, r)] else []
   | _ => [])

/-- One literal separator character. -/
def litSep (sep : Char) : List Char → Option (List Char)
  | c :: r => if c = sep then some r else none
  | [] => none

/-- Model of `strptime` with a day-sep-month-sep-year format: the regex commits to
the first backtracking path that completes the pattern, then the leftover
and the `datetime` constructor are checked. -/
def strptimeDMY (sep : Char) (cs : List Char) : Option PyDateTime :=
  let syn : Option (Nat × Nat × Nat × List Char) :=
    (parseDayTok cs).findSome? fun p =>
      match litSep sep p.2 with
      | none => none
      | some r1 =>
          (parseMonTok r1).findSome? fun q =>
            match litSep sep q.2 with
            | none => none
            | some r2 =>
                match takeDigits 4 r2 with
                | none => none
                | some (ys, r3) => some (p.1, q.1, digitsVal ys, r3)
  match syn with
  | none => none
  | some (d, m, y, rest) => if rest = [] then mkDateChecked d m y else none

/-- Model of `strptime` with a year-sep-month-sep-day format. -/
def strptimeYMD (sep : Char) (cs : List Char) : Option PyDateTime :=
  let syn : Option (Nat × Nat × Nat × List Char) :=
    match takeDigits 4 cs with
    | none => none
    | some (ys, r1) =>
        match litSep sep r1 with
        | none => none
        | some r2 =>
            (parseMonTok r2).findSome? fun q =>
              match litSep sep q.2 with
              | none => none
              | some r3 =>
                  (parseDayTok r3).findSome? fun p =>
                    some (p.1, q.1, digitsVal ys, p.2)
  match syn with
  | none => none
  | some (d, m, y, rest) => if rest = [] then mkDateChecked d m y else none

/-- Model of `ValidationService.parse_date`: the `DATE_FORMATS` list tried in order
(`%d/%m/%Y`, `%d-%m-%Y`, `%Y/%m/%d`, `%Y-%m-%d`, `%d.%m.%Y`); the first
successful parse wins. -/
def parse_date (s : String) : Option PyDateTime :=
  strptimeDMY '/' s.data <|> strptimeDMY '-' s.data <|>
  strptimeYMD '/' s.data <|> strptimeYMD '-' s.data <|>
  strptimeDMY '.' s.data

/-- Model of `ValidationService.validate_date_format`: some format of the list
parses the string (the source's loop over `DATE_FORMATS` succeeds exactly
when `parse_date` does). -/
def validate_date_format (s : String) : Bool :=
  (parse_date s).isSome

/-- Model of `ValidationService.validate_id_number_format`: normalize spaces to
dashes, then the anchored `ID_NUMBER_PATTERN` must match. -/
def validate_id_number_format (id : String) : Bool :=
  idFullMatch (spaceDash id.data)

/-- Model of `ValidationService.validate_date_of_birth` (relative to `now`): the
date parses, is not in the future, and is not before 1900-01-01. -/
def validate_date_of_birth (now : PyDateTime) (s : String) : Bool :=
  match parse_date s with
  | none => false
  | some dob =>
      if PyDateTime.ltB now dob then false
      else if PyDateTime.ltB dob ⟨1900, 1, 1, 0⟩ then false
      else true

/-- Model of `ValidationService.validate_expiry_date` (relative to `now`): the date
parses and is strictly in the future. -/
def validate_expiry_date (now : PyDateTime) (s : String) : Bool :=
  match parse_date s with
  | none => false
  | some e => PyDateTime.ltB now e

/-- The diagnostic messages appended to `errors` / `warnings`, one
constructor per f-string of the source, carrying the interpolated value:
`invalidIdFormat id` = "Invalid ID number format: {id}" (error),
`idNotFound` = "ID number not found in extracted text",
`nameNotFound` = "Name not found",
`dobSeemsInvalid d` = "Date of birth seems invalid: {d}",
`dobFormatUnclear d` = "Date of birth format unclear: {d}",
`idExpired d` = "Emirates ID has expired: {d}" (error),
`expiryFormatUnclear d` = "Expiry date format unclear: {d}",
`expiryNotFound` = "Expiry date not found",
`lowConfidence c` = "Low confidence score: {c:.2f}",
`idFormatUnclear id` = "ID number format unclear: {id}" (back side),
`validationError e` = "Validation error: {e}" (exception handler). -/
inductive Msg where
  | invalidIdFormat (id : String)
  | idNotFound
  | nameNotFound
  | dobSeemsInvalid (d : String)
  | dobFormatUnclear (d : String)
  | idExpired (d : String)
  | expiryFormatUnclear (d : String)
  | expiryNotFound
  | lowConfidence (c : ℚ)
  | idFormatUnclear (id : String)
  | validationError (e : String)
deriving DecidableEq

/-- Python `min(x, y)` on two numbers: the first argument when `x ≤ y`. -/
def pyMin (x y : ℚ) : ℚ :=
  if x ≤ y then x else y

/-- Python truthiness of `data.get(k)` / `data.get(k, '')` for a string
field: present and nonempty. -/
def truthy (o : Option String) : Bool :=
  !(o.getD "").isEmpty

/-- Result of one field check of `_validate_front_side`: the confidence
credit added, the `is_emirates_id` contribution, and the appended error
and warning messages. -/
structure CheckRes where
  credit : ℚ := 0
  isE : Bool := false
  errs : List Msg := []
  warns : List Msg := []
deriving DecidableEq

/-- The ID-number check of `_validate_front_side` (lines 77-87). -/
def frontIdCheck (data : FieldMap) : CheckRes :=
  let idn := data.idNumber.getD ""
  if idn ≠ "" then
    if validate_id_number_format idn then { credit := 2/5, isE := true }
    else { errs := [.invalidIdFormat idn] }
  else { warns := [.idNotFound] }

/-- The name check of `_validate_front_side` (lines 89-93). -/
def frontNameCheck (data : FieldMap) : CheckRes :=
  if truthy data.name then { credit := 1/5 } else { warns := [.nameNotFound] }

/-- The date-of-birth check of `_validate_front_side` (lines 95-104);
note the source emits no warning when the date of birth is absent. -/
def frontDobCheck (now : PyDateTime) (data : FieldMap) : CheckRes :=
  let dob := data.dateOfBirth.getD ""
  if dob ≠ "" then
    if validate_date_format dob then
      if validate_date_of_birth now dob then { credit := 1/10 }
      else { warns := [.dobSeemsInvalid dob] }
    else { warns := [.dobFormatUnclear dob] }
  else { }

/-- The expiry-date check of `_validate_front_side` (lines 106-117). -/
def frontExpiryCheck (now : PyDateTime) (data : FieldMap) : CheckRes :=
  let e := data.expiryDate.getD ""
  if e ≠ "" then
    if validate_date_format e then
      if validate_expiry_date now e then { credit := 1/5 }
      else { errs := [.idExpired e] }
    else { warns := [.expiryFormatUnclear e] }
  else { warns := [.expiryNotFound] }

/-- The nationality credit of `_validate_front_side` (lines 119-121). -/
def frontNatCheck (data : FieldMap) : ℚ :=
  if truthy data.nationality then 1/20 else 0

/-- The gender credit of `_validate_front_side` (lines 123-125). -/
def frontGenderCheck (data : FieldMap) : ℚ :=
  if truthy data.gender then 1/20 else 0

/-- The accumulated (pre-clamp) confidence of `_validate_front_side`: the
straight-line `confidence += w` statements amount to this sum. -/
def frontConfRaw (now : PyDateTime) (data : FieldMap) : ℚ :=
  (frontIdCheck data).credit + (frontNameCheck data).credit +
  (frontDobCheck now data).credit + (frontExpiryCheck now data).credit +
  frontNatCheck data + frontGenderCheck data

/-- The value returned by a side validator together with the lists the
source mutates in place. -/
structure SideResult where
  confidence : ℚ
  is_emirates_id : Bool
  errors : List Msg
  warnings : List Msg
deriving DecidableEq

/-- Model of `ValidationService._validate_front_side`: the checks run in source
order, errors and warnings are appended in that order, a low-confidence
warning is appended when the accumulated confidence is below 0.5, and the
returned confidence is clamped to at most 1. -/
def validate_front_side (now : PyDateTime) (data : FieldMap) : SideResult :=
  let idc := frontIdCheck data
  let nc := frontNameCheck data
  let dc := frontDobCheck now data
  let ec := frontExpiryCheck now data
  let conf := frontConfRaw now data
  { confidence := pyMin conf 1
    is_emirates_id := idc.isE
    errors := idc.errs ++ ec.errs
    warnings := idc.warns ++ nc.warns ++ dc.warns ++ ec.warns ++
      (if conf < 1/2 then [.lowConfidence conf] else []) }

/-- Model of `ValidationService._validate_back_side`: +0.3 and `is_emirates_id` when
a card or ID number is present, +0.4 more when the ID number has valid
format (a malformed one is only a warning here), a low-confidence warning
below 0.3, and `is_emirates_id` also granted when the accumulated
confidence reaches 0.3. -/
def validate_back_side (data : FieldMap) : SideResult :=
  let present : Bool := truthy data.cardNumber || truthy data.idNumber
  let c1 : ℚ := if present then 3/10 else 0
  let idn := data.idNumber.getD ""
  let idPart : ℚ × List Msg :=
    if idn ≠ "" then
      if validate_id_number_format idn then (2/5, [])
      else (0, [.idFormatUnclear idn])
    else (0, [])
  let conf := c1 + idPart.1
  { confidence := pyMin conf 1
    is_emirates_id := present || decide ((3/10 : ℚ) ≤ conf)
    errors := []
    warnings := idPart.2 ++ (if conf < 3/10 then [.lowConfidence conf] else []) }

/-- Model of `Side`: selects the front or back rule set. -/
inductive Side where
  | front
  | back
deriving DecidableEq

/-- What happened inside the `try` block of `validate_emirates_id`: either
the side validator returned a result (with the lists it filled in), or an
unexpected exception interrupted it, leaving the errors and warnings
appended so far and carrying the exception text. -/
inductive SideOutcome where
  | ok (res : SideResult)
  | exc (pErrs pWarns : List Msg) (msg : String)

/-- The outcome record returned to the caller. -/
structure ValidationOutcome where
  isValid : Bool
  isEmiratesID : Bool
  confidence : ℚ
  errors : List Msg
  warnings : List Msg
deriving DecidableEq

/-- The tail of `validate_emirates_id`: on success
`is_valid = is_emirates_id and len(errors) == 0`; on an exception the
initial values (`confidence = 0`, flags false) survive and exactly one
"Validation error: ..." entry is appended to the errors collected so
far. -/
def composeOutcome : SideOutcome → ValidationOutcome
  | .ok r =>
      { isValid := r.is_emirates_id && r.errors.isEmpty
        isEmiratesID := r.is_emirates_id
        confidence := r.confidence
        errors := r.errors
        warnings := r.warnings }
  | .exc pe pw m =>
      { isValid := false
        isEmiratesID := false
        confidence := 0
        errors := pe ++ [.validationError m]
        warnings := pw }

/-- Model of `ValidationService.validate_emirates_id` on the normal (exception-free)
path: dispatch on the side, then compose the outcome. -/
def validate_emirates_id (now : PyDateTime) (data : FieldMap) (side : Side) :
    ValidationOutcome :=
  composeOutcome (.ok (match side with
    | .front => validate_front_side now data
    | .back => validate_back_side data))

/-! ### Specification-side notions used to state the claims -/

/-- A qualifying card-number occurrence in the sense of the (amended) back
side rule: a contiguous digit run of length at least nine that is delimited
on both sides by the text boundary or a non-word character (the `\b`
anchors of the card-number pattern). -/
def IsCardRun (text s : List Char) : Prop :=
  ∃ pre post, text = pre ++ s ++ post ∧ 9 ≤ s.length ∧
    (∀ c ∈ s, c.isDigit = true) ∧
    (pre = [] ∨ ∃ p, pre.getLast? = some p ∧ isWordChar p = false) ∧
    (post = [] ∨ ∃ q, post.head? = some q ∧ isWordChar q = false)

/-- A qualifying card-number occurrence together with its explicit position
in the text, given as the prefix `pre` and suffix `post` around the run: the
occurrence starting earlier is the one with the shorter `pre`. -/
def IsCardRunD (text pre s post : List Char) : Prop :=
  text = pre ++ s ++ post ∧ 9 ≤ s.length ∧
    (∀ c ∈ s, c.isDigit = true) ∧
    (pre = [] ∨ ∃ p, pre.getLast? = some p ∧ isWordChar p = false) ∧
    (post = [] ∨ ∃ q, post.head? = some q ∧ isWordChar q = false)

/-- A qualifying occurrence inside a scanner state: `prevW` records whether
the character preceding `cs` is a word character (`false` at the start of
the text). -/
def OccAt (prevW : Bool) (cs s : List Char) : Prop :=
  ∃ pre post, cs = pre ++ s ++ post ∧ 9 ≤ s.length ∧
    (∀ c ∈ s, c.isDigit = true) ∧
    ((pre = [] ∧ prevW = false) ∨ ∃ p, pre.getLast? = some p ∧ isWordChar p = false) ∧
    (post = [] ∨ ∃ q, post.head? = some q ∧ isWordChar q = false)

/-- The positioned form of a scanner-state occurrence. -/
def OccD (prevW : Bool) (cs pre s post : List Char) : Prop :=
  cs = pre ++ s ++ post ∧ 9 ≤ s.length ∧
    (∀ c ∈ s, c.isDigit = true) ∧
    ((pre = [] ∧ prevW = false) ∨ ∃ p, pre.getLast? = some p ∧ isWordChar p = false) ∧
    (post = [] ∨ ∃ q, post.head? = some q ∧ isWordChar q = false)

/-- The raw text of the spec's Scenario A. -/
def scenarioAText : String := "784-1234-5678901-2 John Smith 15/01/1990 31/12/2030"

/-- A fixed reference time (today's date) used to evaluate the concrete
scenarios deterministically. -/
def nowOct2025 : PyDateTime := ⟨2025, 10, 12, 0⟩

/-- A front-side text whose single date-shaped substring sits more than 20
characters away from the only occurrence of an expiry keyword ("exp" at the
very start, thirty filler characters, then the date). -/
def farKeywordText : String := "expxxxxxxxxxxxxxxxxxxxxxxxxxxxxxx 15/01/1990"

/-! ### Helper lemmas -/

lemma composeOutcome_isValid_iff (r : SideOutcome) :
    (composeOutcome r).isValid = true ↔
      (composeOutcome r).isEmiratesID = true ∧ (composeOutcome r).errors = [] := by
  cases r with
  | ok res => simp [composeOutcome, List.isEmpty_iff]
  | exc pe pw m => simp [composeOutcome]

lemma front_warn_cases (now : PyDateTime) (data : FieldMap) (m : Msg)
    (hm : m ∈ (validate_front_side now data).warnings) :
    m ∈ (frontIdCheck data).warns ∨ m ∈ (frontNameCheck data).warns ∨
    m ∈ (frontDobCheck now data).warns ∨ m ∈ (frontExpiryCheck now data).warns ∨
    ∃ c, m = .lowConfidence c := by
  simp only [validate_front_side, List.mem_append] at hm
  rcases hm with ((((h | h) | h) | h) | h)
  · exact Or.inl h
  · exact Or.inr (Or.inl h)
  · exact Or.inr (Or.inr (Or.inl h))
  · exact Or.inr (Or.inr (Or.inr (Or.inl h)))
  · refine Or.inr (Or.inr (Or.inr (Or.inr ?_)))
    revert h
    split
    · intro h
      simp only [List.mem_singleton] at h
      exact ⟨_, h⟩
    · intro h
      simp at h

lemma frontIdCheck_warn_eq (data : FieldMap) (m : Msg)
    (hm : m ∈ (frontIdCheck data).warns) : m = .idNotFound := by
  simp only [frontIdCheck] at hm
  split at hm
  · split at hm <;> simp at hm
  · simpa using hm

lemma frontNameCheck_warn_eq (data : FieldMap) (m : Msg)
    (hm : m ∈ (frontNameCheck data).warns) : m = .nameNotFound := by
  simp only [frontNameCheck] at hm
  split at hm
  · simp at hm
  · simpa using hm

lemma frontDobCheck_warns_none (now : PyDateTime) (data : FieldMap)
    (h : data.dateOfBirth = none) : (frontDobCheck now data).warns = [] := by
  simp [frontDobCheck, h]

lemma frontExpiryCheck_warns_none (now : PyDateTime) (data : FieldMap)
    (h : data.expiryDate = none) :
    frontExpiryCheck now data = { warns := [.expiryNotFound] } := by
  simp [frontExpiryCheck, h]

/-! ### The claims -/

/-- C6.  For every side-validation outcome (including the internal-exception
path) and in particular for every FieldMap and side on the normal path,
`isValid` holds exactly when `isEmiratesID` holds and the errors list is
empty; in particular `isValid` implies `isEmiratesID`. -/
theorem claim6_isValid_iff_isEmiratesID_and_no_errors :
    (∀ r : SideOutcome,
      (composeOutcome r).isValid = true ↔
        (composeOutcome r).isEmiratesID = true ∧ (composeOutcome r).errors = []) ∧
    (∀ (now : PyDateTime) (data : FieldMap) (side : Side),
      (validate_emirates_id now data side).isValid = true ↔
        (validate_emirates_id now data side).isEmiratesID = true ∧
        (validate_emirates_id now data side).errors = []) :=
  ⟨fun r => composeOutcome_isValid_iff r,
   fun _ _ side => composeOutcome_isValid_iff (.ok (match side with
    | .front => validate_front_side _ _
    | .back => validate_back_side _))⟩

/-- C8.  When an unexpected exception interrupts side-specific validation,
the composed outcome appends exactly one descriptive entry to the errors
collected so far, reports `isValid = false` and `isEmiratesID = false`, and
is an ordinary return value (the exception does not propagate). -/
theorem claim8_exception_caught (pe pw : List Msg) (m : String) :
    composeOutcome (.exc pe pw m) =
      { isValid := false, isEmiratesID := false, confidence := 0,
        errors := pe ++ [.validationError m], warnings := pw } ∧
    (composeOutcome (.exc pe pw m)).errors.length = pe.length + 1 := by
  refine ⟨rfl, ?_⟩
  simp [composeOutcome]

/-- C10.  Back-side validation never appends an error: the outcome's errors
list is always empty, and consequently `isValid` coincides with
`isEmiratesID` on the back side. -/
theorem claim10_back_no_errors (now : PyDateTime) (data : FieldMap) :
    (validate_emirates_id now data .back).errors = [] ∧
    (validate_emirates_id now data .back).isValid =
      (validate_emirates_id now data .back).isEmiratesID := by
  constructor
  · rfl
  · simp [validate_emirates_id, composeOutcome, validate_back_side]

/-- C9.  When the date scan of the front side finds exactly two date-shaped
substrings, the first (in occurrence order) becomes `dateOfBirth` and the
second `expiryDate`, regardless of any keywords in the text. -/
theorem claim9_two_dates (text : String) (d1 d2 : String)
    (h : (findDatesL text.data).map String.mk = [d1, d2]) :
    (parse_front_side text).dateOfBirth = some d1 ∧
    (parse_front_side text).expiryDate = some d2 := by
  constructor <;> simp [parse_front_side, h]

/-- Witness for C9 at a concrete input. -/
theorem claim9_two_dates_witness :
    (findDatesL ("expiry 01/01/1990 02/02/2000" : String).data).map String.mk =
      ["01/01/1990", "02/02/2000"] ∧
    (parse_front_side "expiry 01/01/1990 02/02/2000").dateOfBirth = some "01/01/1990" ∧
    (parse_front_side "expiry 01/01/1990 02/02/2000").expiryDate = some "02/02/2000" :=
  ⟨by decide, claim9_two_dates "expiry 01/01/1990 02/02/2000" "01/01/1990" "02/02/2000" (by decide)⟩

/-- C3, counterexample.  In `farKeywordText` the only expiry keyword sits 34
characters before the single date-shaped substring, far outside the ±20
character window around the date (the window, shown lower-cased, contains no
expiry keyword); the claim therefore predicts `dateOfBirth`, but the code
checks the whole text for `'expiry'`/`'exp'` and assigns `expiryDate`. -/
theorem claim3_counterexample :
    (findDatesL farKeywordText.data).map String.mk = ["15/01/1990"] ∧
    strContainsL "exp".data ((lowerL farKeywordText.data).drop 14 |>.take 40) = false ∧
    strContainsL "valid".data ((lowerL farKeywordText.data).drop 14 |>.take 40) = false ∧
    (parse_front_side farKeywordText).expiryDate = some "15/01/1990" ∧
    (parse_front_side farKeywordText).dateOfBirth = none := by
  decide

/-- C3, amended.  When the front-side date scan finds exactly one date-shaped
substring, the date is assigned to `expiryDate` when `'expiry'` or `'exp'`
occurs anywhere in the lower-cased text (not merely in a ±20 window around
the date), and to `dateOfBirth` otherwise. -/
theorem claim3_one_date_keyword_anywhere (text : String) (d : String)
    (h : (findDatesL text.data).map String.mk = [d]) :
    ((strContainsL "expiry".data (lowerL text.data) ||
        strContainsL "exp".data (lowerL text.data)) = true →
      (parse_front_side text).expiryDate = some d ∧
      (parse_front_side text).dateOfBirth = none) ∧
    ((strContainsL "expiry".data (lowerL text.data) ||
        strContainsL "exp".data (lowerL text.data)) = false →
      (parse_front_side text).dateOfBirth = some d ∧
      (parse_front_side text).expiryDate = none) := by
  constructor <;> intro hc <;> constructor <;> simp [parse_front_side, h, hc]

/-- Witness for C3 at a concrete input (no keyword: the date becomes the
date of birth). -/
theorem claim3_one_date_witness :
    (findDatesL ("dob 15/01/1990" : String).data).map String.mk = ["15/01/1990"] ∧
    ((strContainsL "expiry".data (lowerL ("dob 15/01/1990" : String).data) ||
        strContainsL "exp".data (lowerL ("dob 15/01/1990" : String).data)) = false →
      (parse_front_side "dob 15/01/1990").dateOfBirth = some "15/01/1990" ∧
      (parse_front_side "dob 15/01/1990").expiryDate = none) :=
  ⟨by decide, (claim3_one_date_keyword_anywhere "dob 15/01/1990" "15/01/1990" (by decide)).2⟩

/-- C4, counterexample.  For a text with no date-shaped substring the
warnings of front-side validation are exactly the four listed ones: an
expiry-date-not-found warning is present, but no warning at all mentions the
date of birth (the source's date-of-birth check has no `else` branch for an
absent value), contradicting the claimed pair of warnings. -/
theorem claim4_counterexample :
    findDatesL ("x" : String).data = [] ∧
    (validate_emirates_id nowOct2025 (parse_front_side "x") .front).warnings =
      [.idNotFound, .nameNotFound, .expiryNotFound, .lowConfidence 0] := by
  constructor
  · decide
  · with_unfolding_all rfl

/-- C4, amended.  For every text with zero date-shaped substrings, extraction
sets neither `dateOfBirth` nor `expiryDate`, and validation emits the
expiry-date-not-found warning but no date-of-birth warning of any kind. -/
theorem claim4_no_dates (now : PyDateTime) (text : String)
    (h : findDatesL text.data = []) :
    (parse_front_side text).dateOfBirth = none ∧
    (parse_front_side text).expiryDate = none ∧
    Msg.expiryNotFound ∈ (validate_emirates_id now (parse_front_side text) .front).warnings ∧
    ∀ m ∈ (validate_emirates_id now (parse_front_side text) .front).warnings,
      (∀ s, m ≠ .dobSeemsInvalid s) ∧ (∀ s, m ≠ .dobFormatUnclear s) := by
  have hdob : (parse_front_side text).dateOfBirth = none := by
    simp [parse_front_side, h]
  have hexp : (parse_front_side text).expiryDate = none := by
    simp [parse_front_side, h]
  have hw : (validate_emirates_id now (parse_front_side text) .front).warnings =
      (validate_front_side now (parse_front_side text)).warnings := rfl
  refine ⟨hdob, hexp, ?_, ?_⟩
  · rw [hw]
    simp only [validate_front_side, List.mem_append]
    refine Or.inl (Or.inr ?_)
    rw [frontExpiryCheck_warns_none now _ hexp]
    simp
  · intro m hm
    rw [hw] at hm
    rcases front_warn_cases now _ m hm with h1 | h1 | h1 | h1 | ⟨c, h1⟩
    · rw [frontIdCheck_warn_eq _ _ h1]
      simp
    · rw [frontNameCheck_warn_eq _ _ h1]
      simp
    · rw [frontDobCheck_warns_none now _ hdob] at h1
      simp at h1
    · rw [frontExpiryCheck_warns_none now _ hexp] at h1
      simp only [List.mem_singleton] at h1
      rw [h1]
      simp
    · rw [h1]
      simp

/-- Witness for C4 at a concrete input. -/
theorem claim4_no_dates_witness :
    findDatesL ("x" : String).data = [] ∧
    ((parse_front_side "x").dateOfBirth = none ∧
     (parse_front_side "x").expiryDate = none ∧
     Msg.expiryNotFound ∈ (validate_emirates_id nowOct2025 (parse_front_side "x") .front).warnings ∧
     ∀ m ∈ (validate_emirates_id nowOct2025 (parse_front_side "x") .front).warnings,
       (∀ s, m ≠ .dobSeemsInvalid s) ∧ (∀ s, m ≠ .dobFormatUnclear s)) :=
  ⟨by decide, claim4_no_dates nowOct2025 "x" (by decide)⟩

/-- C1, counterexample.  On the Scenario A text the code does not extract the
name at all (the bare-name pattern is anchored at the start of the text,
which begins with the ID number, and no "name" label is present), and the
resulting confidence is 0.7, not the claimed 0.9. -/
theorem claim1_counterexample :
    (parse_front_side scenarioAText).name = none ∧
    (validate_emirates_id nowOct2025 (parse_front_side scenarioAText) .front).confidence
      = 7/10 := by
  constructor
  · decide
  · with_unfolding_all rfl

/-- C1, amended.  On the Scenario A text, front-side extraction returns
exactly the ID number, date of birth and expiry date (no name), and
validation at the reference time yields `isEmiratesID = true`,
`isValid = true` and confidence 0.4 + 0.1 + 0.2 = 0.7, with a
name-not-found warning and no errors. -/
theorem claim1_scenarioA :
    parse_front_side scenarioAText =
      { idNumber := some "784-1234-5678901-2", dateOfBirth := some "15/01/1990",
        expiryDate := some "31/12/2030" } ∧
    validate_emirates_id nowOct2025 (parse_front_side scenarioAText) .front =
      { isValid := true, isEmiratesID := true, confidence := 7/10,
        errors := [], warnings := [.nameNotFound] } := by
  constructor
  · decide
  · with_unfolding_all rfl

lemma pyMin_le_pyMin_left (a b c : ℚ) (h : a ≤ b) : pyMin a c ≤ pyMin b c := by
  unfold pyMin
  split_ifs <;> linarith

/-- C7.  Front-side monotonicity: extending a FieldMap that lacks an
expiry date with an expiry date that parses under an accepted format and is
strictly in the future never decreases the confidence and never turns a
valid outcome invalid. -/
theorem claim7_expiry_monotone (now : PyDateTime) (F : FieldMap) (v : String)
    (hnone : F.expiryDate = none)
    (hfmt : validate_date_format v = true)
    (hfut : validate_expiry_date now v = true) :
    (validate_emirates_id now F .front).confidence ≤
      (validate_emirates_id now { F with expiryDate := some v } .front).confidence ∧
    ((validate_emirates_id now F .front).isValid = true →
      (validate_emirates_id now { F with expiryDate := some v } .front).isValid = true) := by
  have hv : v ≠ "" := by
    intro he
    rw [he] at hfmt
    exact absurd hfmt (by decide)
  have hecF : frontExpiryCheck now F = { warns := [.expiryNotFound] } :=
    frontExpiryCheck_warns_none now F hnone
  have hecF' : frontExpiryCheck now { F with expiryDate := some v } = { credit := 1/5 } := by
    simp [frontExpiryCheck, hv, hfmt, hfut]
  have hconf : frontConfRaw now { F with expiryDate := some v } = frontConfRaw now F + 1/5 := by
    simp only [frontConfRaw, hecF, hecF']
    show (frontIdCheck F).credit + (frontNameCheck F).credit + (frontDobCheck now F).credit +
        (1/5 : ℚ) + frontNatCheck F + frontGenderCheck F =
      (frontIdCheck F).credit + (frontNameCheck F).credit + (frontDobCheck now F).credit +
        (0 : ℚ) + frontNatCheck F + frontGenderCheck F + 1/5
    ring
  constructor
  · show pyMin (frontConfRaw now F) 1 ≤
      pyMin (frontConfRaw now { F with expiryDate := some v }) 1
    rw [hconf]
    exact pyMin_le_pyMin_left _ _ _ (by linarith)
  · show ((frontIdCheck F).isE && ((frontIdCheck F).errs ++ (frontExpiryCheck now F).errs).isEmpty) = true →
      ((frontIdCheck F).isE &&
        ((frontIdCheck F).errs ++ (frontExpiryCheck now { F with expiryDate := some v }).errs).isEmpty) = true
    rw [hecF, hecF']
    simp

/-- Witness for C7 at a concrete input. -/
theorem claim7_expiry_monotone_witness :
    (({} : FieldMap).expiryDate = none ∧
     validate_date_format "31/12/2030" = true ∧
     validate_expiry_date nowOct2025 "31/12/2030" = true) ∧
    ((validate_emirates_id nowOct2025 {} .front).confidence ≤
      (validate_emirates_id nowOct2025
        { ({} : FieldMap) with expiryDate := some "31/12/2030" } .front).confidence ∧
     ((validate_emirates_id nowOct2025 {} .front).isValid = true →
      (validate_emirates_id nowOct2025
        { ({} : FieldMap) with expiryDate := some "31/12/2030" } .front).isValid = true)) :=
  ⟨⟨rfl, by decide, by decide⟩,
   claim7_expiry_monotone nowOct2025 {} "31/12/2030" rfl (by decide) (by decide)⟩

/-! ### Structure of ID-pattern matches (for C2) -/

lemma digit_not_sep (c : Char) (h : c.isDigit = true) :
    (c = '-' || pyIsSpace c) = false := by
  simp only [Char.isDigit, Bool.and_eq_true, decide_eq_true_eq] at h
  obtain ⟨h1, h2⟩ := h
  cases hds : (c = '-' || pyIsSpace c)
  · rfl
  · exfalso
    simp only [pyIsSpace, Bool.or_eq_true, decide_eq_true_eq] at hds
    casesm* _ ∨ _
    all_goals rename_i hc
    all_goals first
      | (subst hc; revert h1 h2; decide)
      | (rw [hc] at h1 h2; revert h1 h2; decide)

lemma digit_ne_space (c : Char) (h : c.isDigit = true) : c ≠ ' ' := by
  intro hc
  have hds := digit_not_sep c h
  rw [hc] at hds
  exact absurd hds (by decide)

lemma takeDigits_sound :
    ∀ (n : Nat) (cs d r : List Char), takeDigits n cs = some (d, r) →
      cs = d ++ r ∧ d.length = n ∧ ∀ c ∈ d, c.isDigit = true := by
  intro n
  induction n with
  | zero =>
      intro cs d r h
      simp only [takeDigits, Option.some.injEq, Prod.mk.injEq] at h
      obtain ⟨hd, hr⟩ := h
      subst hd; subst hr
      simp
  | succ k ih =>
      intro cs d r h
      cases cs with
      | nil => simp [takeDigits] at h
      | cons c cs' =>
          simp only [takeDigits] at h
          split at h
          · cases hk : takeDigits k cs' with
            | none => rw [hk] at h; simp at h
            | some p =>
                rcases p with ⟨pd, pr⟩
                rw [hk] at h
                simp only [Option.map, Option.some.injEq, Prod.mk.injEq] at h
                obtain ⟨hd, hr⟩ := h
                obtain ⟨hcs, hlen, hdig⟩ := ih cs' pd pr hk
                subst hd
                subst hr
                refine ⟨by simp [hcs], by simp [hlen], ?_⟩
                intro x hx
                rcases List.mem_cons.mp hx with hx | hx
                · subst hx; assumption
                · exact hdig x hx
          · exact Option.noConfusion h

lemma takeDigits_complete :
    ∀ (d r : List Char), (∀ c ∈ d, c.isDigit = true) →
      takeDigits d.length (d ++ r) = some (d, r) := by
  intro d
  induction d with
  | nil => intro r _; simp [takeDigits]
  | cons c d' ih =>
      intro r h
      have hc : c.isDigit = true := h c (List.mem_cons_self c d')
      have ht := ih r (fun x hx => h x (List.mem_cons_of_mem c hx))
      simp [takeDigits, hc, ht]

lemma takeDigits_exact (n : Nat) (d r : List Char) (hlen : d.length = n)
    (hd : ∀ c ∈ d, c.isDigit = true) : takeDigits n (d ++ r) = some (d, r) := by
  subst hlen
  exact takeDigits_complete d r hd

lemma sepOpt_sound (cs s r : List Char) (h : sepOpt cs = (s, r)) :
    (s = [] ∧ r = cs) ∨
    ∃ c, s = [c] ∧ (c = '-' || pyIsSpace c) = true ∧ cs = c :: r := by
  cases cs with
  | nil =>
      simp only [sepOpt, Prod.mk.injEq] at h
      exact Or.inl ⟨h.1.symm ▸ rfl, by rw [← h.2]⟩
  | cons c cs' =>
      simp only [sepOpt] at h
      split at h
      · rename_i hsep
        simp only [Prod.mk.injEq] at h
        exact Or.inr ⟨c, h.1.symm ▸ rfl, hsep, by rw [← h.2]⟩
      · rename_i hsep
        simp only [Prod.mk.injEq] at h
        refine Or.inl ⟨h.1.symm ▸ rfl, by rw [← h.2]⟩

lemma sepOpt_of_sep (c : Char) (rest : List Char)
    (h : (c = '-' || pyIsSpace c) = true) : sepOpt (c :: rest) = ([c], rest) := by
  simp [sepOpt, h]

lemma sepOpt_of_digit (c : Char) (rest : List Char) (h : c.isDigit = true) :
    sepOpt (c :: rest) = ([], c :: rest) := by
  simp [sepOpt, digit_not_sep c h]

lemma spaceDash_nil : spaceDash [] = [] := rfl

lemma spaceDash_cons (c : Char) (l : List Char) :
    spaceDash (c :: l) = (if c = ' ' then '-' else c) :: spaceDash l := rfl

lemma spaceDash_append (a b : List Char) :
    spaceDash (a ++ b) = spaceDash a ++ spaceDash b := List.map_append _ a b

lemma spaceDash_digits (d : List Char) (h : ∀ c ∈ d, c.isDigit = true) :
    spaceDash d = d := by
  induction d with
  | nil => rfl
  | cons c d' ih =>
      rw [spaceDash_cons, if_neg (digit_ne_space c (h c (List.mem_cons_self c d'))),
        ih (fun x hx => h x (List.mem_cons_of_mem c hx))]

lemma spaceDash_idem (l : List Char) : spaceDash (spaceDash l) = spaceDash l := by
  induction l with
  | nil => rfl
  | cons c l' ih =>
      by_cases hc : c = ' '
      · subst hc
        simp [spaceDash_cons, ih]
      · simp [spaceDash_cons, hc, ih]

/-- A separator group of the ID pattern: empty, or a single dash-or-space
class character. -/
def SepPart (s : List Char) : Prop :=
  s = [] ∨ ∃ c, s = [c] ∧ (c = '-' || pyIsSpace c) = true

lemma spaceDash_sep (s : List Char) (h : SepPart s) : SepPart (spaceDash s) := by
  rcases h with h | ⟨c, hs, hc⟩
  · exact Or.inl (by simp [h, spaceDash])
  · subst hs
    by_cases hsp : c = ' '
    · exact Or.inr ⟨'-', by simp [spaceDash_cons, spaceDash_nil, hsp], by decide⟩
    · exact Or.inr ⟨c, by simp [spaceDash_cons, spaceDash_nil, hsp], hc⟩

/-- Computing the ID matcher on a normalized well-shaped tail: with `784`
followed by three digit groups of lengths 4, 7, 1 joined by separator
groups, the matcher consumes everything. -/
lemma matchIdCore_shape (s1 d1 s2 d2 s3 d3 : List Char)
    (hs1 : SepPart s1) (hs2 : SepPart s2) (hs3 : SepPart s3)
    (hd1 : d1.length = 4 ∧ ∀ c ∈ d1, c.isDigit = true)
    (hd2 : d2.length = 7 ∧ ∀ c ∈ d2, c.isDigit = true)
    (hd3 : d3.length = 1 ∧ ∀ c ∈ d3, c.isDigit = true) :
    matchIdCore ('7' :: '8' :: '4' :: (s1 ++ (d1 ++ (s2 ++ (d2 ++ (s3 ++ d3)))))) =
      some ('7' :: '8' :: '4' :: (s1 ++ (d1 ++ (s2 ++ (d2 ++ (s3 ++ d3))))), []) := by
  obtain ⟨hl1, hg1⟩ := hd1
  obtain ⟨hl2, hg2⟩ := hd2
  obtain ⟨hl3, hg3⟩ := hd3
  obtain ⟨a1, t1, hdc1⟩ : ∃ a t, d1 = a :: t := by
    cases d1 with
    | nil => simp at hl1
    | cons a t => exact ⟨a, t, rfl⟩
  obtain ⟨a2, t2, hdc2⟩ : ∃ a t, d2 = a :: t := by
    cases d2 with
    | nil => simp at hl2
    | cons a t => exact ⟨a, t, rfl⟩
  obtain ⟨a3, t3, hdc3⟩ : ∃ a t, d3 = a :: t := by
    cases d3 with
    | nil => simp at hl3
    | cons a t => exact ⟨a, t, rfl⟩
  have hsep1 : sepOpt (s1 ++ (d1 ++ (s2 ++ (d2 ++ (s3 ++ d3))))) =
      (s1, d1 ++ (s2 ++ (d2 ++ (s3 ++ d3)))) := by
    rcases hs1 with h | ⟨c, hs, hc⟩
    · subst h
      simp only [List.nil_append]
      rw [hdc1, List.cons_append,
        sepOpt_of_digit _ _ (hg1 a1 (by rw [hdc1]; exact List.mem_cons_self _ _)),
        ← List.cons_append, ← hdc1]
    · subst hs
      rw [List.singleton_append, sepOpt_of_sep _ _ hc]
  have hsep2 : sepOpt (s2 ++ (d2 ++ (s3 ++ d3))) = (s2, d2 ++ (s3 ++ d3)) := by
    rcases hs2 with h | ⟨c, hs, hc⟩
    · subst h
      simp only [List.nil_append]
      rw [hdc2, List.cons_append,
        sepOpt_of_digit _ _ (hg2 a2 (by rw [hdc2]; exact List.mem_cons_self _ _)),
        ← List.cons_append, ← hdc2]
    · subst hs
      rw [List.singleton_append, sepOpt_of_sep _ _ hc]
  have hsep3 : sepOpt (s3 ++ d3) = (s3, d3) := by
    rcases hs3 with h | ⟨c, hs, hc⟩
    · subst h
      simp only [List.nil_append]
      rw [hdc3, sepOpt_of_digit _ _ (hg3 a3 (by rw [hdc3]; exact List.mem_cons_self _ _)),
        ← hdc3]
    · subst hs
      rw [List.singleton_append, sepOpt_of_sep _ _ hc]
  have ht1 : takeDigits 4 (d1 ++ (s2 ++ (d2 ++ (s3 ++ d3)))) =
      some (d1, s2 ++ (d2 ++ (s3 ++ d3))) := takeDigits_exact _ _ _ hl1 hg1
  have ht2 : takeDigits 7 (d2 ++ (s3 ++ d3)) = some (d2, s3 ++ d3) :=
    takeDigits_exact _ _ _ hl2 hg2
  have ht3 : takeDigits 1 d3 = some (d3, []) := by
    have := takeDigits_exact 1 d3 [] hl3 hg3
    rwa [List.append_nil] at this
  simp only [matchIdCore, hsep1, ht1, hsep2, ht2, hsep3, ht3]
  simp

/-- Every successful ID match normalizes to a full match of the anchored
validator pattern, and starts with the literal `784`. -/
lemma matchIdCore_norm (cs m r : List Char) (h : matchIdCore cs = some (m, r)) :
    matchIdCore (spaceDash m) = some (spaceDash m, []) ∧
    ∃ t, m = '7' :: '8' :: '4' :: t := by
  cases cs with
  | nil => simp [matchIdCore] at h
  | cons a cs1 =>
  cases cs1 with
  | nil => simp [matchIdCore] at h
  | cons b cs2 =>
  cases cs2 with
  | nil => simp [matchIdCore] at h
  | cons c r0 =>
  simp only [matchIdCore] at h
  split at h
  case isFalse => exact Option.noConfusion h
  case isTrue h784 =>
  obtain ⟨ha, hb, hc⟩ := h784
  subst ha; subst hb; subst hc
  rcases heq1 : sepOpt r0 with ⟨s1, r1⟩
  simp only [heq1] at h
  split at h
  case h_1 => exact Option.noConfusion h
  case h_2 =>
  rename_i d1 r2 ht1
  rcases heq2 : sepOpt r2 with ⟨s2, r3⟩
  simp only [heq2] at h
  split at h
  case h_1 => exact Option.noConfusion h
  case h_2 =>
  rename_i d2 r4 ht2
  rcases heq3 : sepOpt r4 with ⟨s3, r5⟩
  simp only [heq3] at h
  split at h
  case h_1 => exact Option.noConfusion h
  case h_2 =>
  rename_i d3 r6 ht3
  simp only [Option.some.injEq, Prod.mk.injEq] at h
  obtain ⟨hm, hr⟩ := h
  have hsp1 : SepPart s1 := by
    rcases sepOpt_sound r0 s1 r1 heq1 with ⟨h1, _⟩ | ⟨cc, h1, h2, _⟩
    · exact Or.inl h1
    · exact Or.inr ⟨cc, h1, h2⟩
  have hsp2 : SepPart s2 := by
    rcases sepOpt_sound r2 s2 r3 heq2 with ⟨h1, _⟩ | ⟨cc, h1, h2, _⟩
    · exact Or.inl h1
    · exact Or.inr ⟨cc, h1, h2⟩
  have hsp3 : SepPart s3 := by
    rcases sepOpt_sound r4 s3 r5 heq3 with ⟨h1, _⟩ | ⟨cc, h1, h2, _⟩
    · exact Or.inl h1
    · exact Or.inr ⟨cc, h1, h2⟩
  obtain ⟨_, hl1, hg1⟩ := takeDigits_sound 4 r1 d1 r2 ht1
  obtain ⟨_, hl2, hg2⟩ := takeDigits_sound 7 r3 d2 r4 ht2
  obtain ⟨_, hl3, hg3⟩ := takeDigits_sound 1 r5 d3 r6 ht3
  subst hm
  constructor
  · have hnorm :
        spaceDash ('7' :: '8' :: '4' :: (s1 ++ (d1 ++ (s2 ++ (d2 ++ (s3 ++ d3)))))) =
          '7' :: '8' :: '4' ::
            (spaceDash s1 ++ (d1 ++ (spaceDash s2 ++ (d2 ++ (spaceDash s3 ++ d3))))) := by
      rw [spaceDash_cons, spaceDash_cons, spaceDash_cons]
      simp only [spaceDash_append, spaceDash_digits d1 hg1, spaceDash_digits d2 hg2,
        spaceDash_digits d3 hg3]
      simp
    rw [hnorm]
    exact matchIdCore_shape _ _ _ _ _ _ (spaceDash_sep s1 hsp1) (spaceDash_sep s2 hsp2)
      (spaceDash_sep s3 hsp3) ⟨hl1, hg1⟩ ⟨hl2, hg2⟩ ⟨hl3, hg3⟩
  · exact ⟨_, rfl⟩

lemma searchIdL_sound :
    ∀ (cs m : List Char), searchIdL cs = some m →
      ∃ tail r, matchIdCore tail = some (m, r) := by
  intro cs
  induction cs with
  | nil => intro m h; simp [searchIdL] at h
  | cons c cs' ih =>
      intro m h
      simp only [searchIdL] at h
      cases hm : matchIdCore (c :: cs') with
      | some p =>
          rw [hm] at h
          rcases p with ⟨pm, pr⟩
          simp only [Option.some.injEq] at h
          subst h
          exact ⟨c :: cs', pr, hm⟩
      | none =>
          rw [hm] at h
          exact ih m h

lemma searchIdL_isSome_of (pre tail : List Char) (p : List Char × List Char)
    (h : matchIdCore tail = some p) : (searchIdL (pre ++ tail)).isSome = true := by
  induction pre with
  | nil =>
      cases tail with
      | nil => simp [matchIdCore] at h
      | cons c cs =>
          rcases p with ⟨pm, pr⟩
          simp only [List.nil_append, searchIdL]
          rw [h]
          simp
  | cons c pre' ih =>
      simp only [List.cons_append, searchIdL]
      cases hm : matchIdCore (c :: (pre' ++ tail)) with
      | some q => simp
      | none => exact ih

/-- C2, counterexample.  A tab character is accepted by the pattern's
whitespace class but is not replaced by a dash during normalization (only
the plain space is): the stored `idNumber` keeps the tab, so it is not the
dash-normalized form of the contained match. -/
theorem claim2_counterexample :
    (parse_front_side "784\t1234-5678901-2").idNumber = some "784\t1234-5678901-2" ∧
    ("784\t1234-5678901-2" : String) ≠ "784-1234-5678901-2" := by
  decide

/-- C2, amended.  For every text containing a substring matching the ID
pattern, front-side extraction stores an `idNumber` equal to the leftmost
match with its plain spaces (only) replaced by dashes; that value always
passes the strict format validator, the validation outcome has
`isEmiratesID = true`, and the accumulated raw confidence exceeds by exactly
0.4 the one of the same FieldMap without its `idNumber`. -/
theorem claim2_id_number (text : String) (now : PyDateTime)
    (h : ∃ pre m rest, text.data = pre ++ (m ++ rest) ∧
      matchIdCore (m ++ rest) = some (m, rest)) :
    ∃ mf, searchIdL text.data = some mf ∧
      (parse_front_side text).idNumber = some (String.mk (spaceDash mf)) ∧
      validate_id_number_format (String.mk (spaceDash mf)) = true ∧
      (validate_emirates_id now (parse_front_side text) .front).isEmiratesID = true ∧
      frontConfRaw now (parse_front_side text) =
        2/5 + frontConfRaw now { parse_front_side text with idNumber := none } := by
  obtain ⟨pre, m, rest, hsplit, hmatch⟩ := h
  have hsome : (searchIdL text.data).isSome = true := by
    rw [hsplit]
    exact searchIdL_isSome_of pre (m ++ rest) (m, rest) hmatch
  obtain ⟨mf, hmf⟩ := Option.isSome_iff_exists.mp hsome
  obtain ⟨tail, r, hmc⟩ := searchIdL_sound text.data mf hmf
  obtain ⟨hfull, t, hhead⟩ := matchIdCore_norm tail mf r hmc
  have hid : (parse_front_side text).idNumber = some (String.mk (spaceDash mf)) := by
    simp [parse_front_side, hmf]
  have hval : validate_id_number_format (String.mk (spaceDash mf)) = true := by
    unfold validate_id_number_format idFullMatch
    show (match matchIdCore (spaceDash (String.mk (spaceDash mf)).data) with
      | some (_, rest) => rest = [] || rest = ['\n']
      | none => false) = true
    have : (String.mk (spaceDash mf)).data = spaceDash mf := rfl
    rw [this, spaceDash_idem, hfull]
    simp
  have hne : String.mk (spaceDash mf) ≠ "" := by
    rw [hhead]
    intro hcon
    have hdata : spaceDash ('7' :: '8' :: '4' :: t) = [] := congrArg String.data hcon
    rw [spaceDash_cons] at hdata
    exact List.noConfusion hdata
  have hidchk : frontIdCheck (parse_front_side text) = { credit := 2/5, isE := true } := by
    simp only [frontIdCheck, hid, Option.getD_some]
    rw [if_pos hne, if_pos hval]
  have hidchk' : frontIdCheck { parse_front_side text with idNumber := none } =
      { warns := [.idNotFound] } := by
    simp [frontIdCheck]
  refine ⟨mf, hmf, hid, hval, ?_, ?_⟩
  · show (frontIdCheck (parse_front_side text)).isE = true
    rw [hidchk]
  · have e1 : frontNameCheck { parse_front_side text with idNumber := none } =
        frontNameCheck (parse_front_side text) := rfl
    have e2 : frontDobCheck now { parse_front_side text with idNumber := none } =
        frontDobCheck now (parse_front_side text) := rfl
    have e3 : frontExpiryCheck now { parse_front_side text with idNumber := none } =
        frontExpiryCheck now (parse_front_side text) := rfl
    have e4 : frontNatCheck { parse_front_side text with idNumber := none } =
        frontNatCheck (parse_front_side text) := rfl
    have e5 : frontGenderCheck { parse_front_side text with idNumber := none } =
        frontGenderCheck (parse_front_side text) := rfl
    simp only [frontConfRaw, hidchk, hidchk', e1, e2, e3, e4, e5]
    ring

/-- Witness for C2 at a concrete input (space separators). -/
theorem claim2_id_number_witness :
    ∃ mf, searchIdL ("id 784 1234 5678901 2!" : String).data = some mf ∧
      (parse_front_side "id 784 1234 5678901 2!").idNumber = some (String.mk (spaceDash mf)) ∧
      validate_id_number_format (String.mk (spaceDash mf)) = true ∧
      (validate_emirates_id nowOct2025 (parse_front_side "id 784 1234 5678901 2!") .front).isEmiratesID = true ∧
      frontConfRaw nowOct2025 (parse_front_side "id 784 1234 5678901 2!") =
        2/5 + frontConfRaw nowOct2025
          { parse_front_side "id 784 1234 5678901 2!" with idNumber := none } :=
  claim2_id_number "id 784 1234 5678901 2!" nowOct2025
    ⟨"id ".data, "784 1234 5678901 2".data, "!".data, by decide, by decide⟩

/-! ### The card-number scan (for C5) -/

lemma length_dropWhile_le (p : Char → Bool) :
    ∀ l : List Char, (l.dropWhile p).length ≤ l.length := by
  intro l
  induction l with
  | nil => exact Nat.le_refl _
  | cons c l ih =>
      rw [List.dropWhile_cons]
      split
      · exact Nat.le_trans ih (Nat.le_succ _)
      · exact Nat.le_refl _

lemma digit_isWord (c : Char) (h : c.isDigit = true) : isWordChar c = true := by
  simp [isWordChar, Char.isAlphanum, h]

lemma notWord_notDigit (c : Char) (h : isWordChar c = false) : c.isDigit = false := by
  cases hd : c.isDigit
  · rfl
  · rw [digit_isWord c hd] at h
    exact absurd h (by simp)

lemma takeWhile_all_append (p : Char → Bool) (a b : List Char)
    (ha : ∀ c ∈ a, p c = true) :
    (a ++ b).takeWhile p = a ++ b.takeWhile p ∧ (a ++ b).dropWhile p = b.dropWhile p := by
  induction a with
  | nil => simp
  | cons c a' ih =>
      have hc := ha c (List.mem_cons_self c a')
      have ih' := ih (fun x hx => ha x (List.mem_cons_of_mem c hx))
      simp [List.takeWhile_cons, List.dropWhile_cons, hc, ih'.1, ih'.2]

lemma takeWhile_stop (p : Char → Bool) (a : List Char) (x : Char) (b : List Char)
    (hx : p x = false) :
    (a ++ x :: b).takeWhile p = a.takeWhile p ∧
    (a ++ x :: b).dropWhile p = a.dropWhile p ++ x :: b := by
  induction a with
  | nil => simp [List.takeWhile_cons, List.dropWhile_cons, hx]
  | cons c a' ih =>
      cases hpc : p c
      · simp [List.takeWhile_cons, List.dropWhile_cons, hpc]
      · simp [List.takeWhile_cons, List.dropWhile_cons, hpc, ih.1, ih.2]

/-- Lifting a qualifying occurrence one character to the left when the scan
merely advances. -/
lemma OccAt_cons_lift (c : Char) (cs' s : List Char) (prevW : Bool)
    (h : OccAt (isWordChar c) cs' s) : OccAt prevW (c :: cs') s := by
  obtain ⟨pre, post, hsplit, hslen, hdig, hpre, hpost⟩ := h
  refine ⟨c :: pre, post, by rw [hsplit]; rfl, hslen, hdig, ?_, hpost⟩
  rcases hpre with ⟨hpe, hpw⟩ | ⟨p, hgl, hpw⟩
  · subst hpe
    exact Or.inr ⟨c, by simp, hpw⟩
  · right
    refine ⟨p, ?_, hpw⟩
    obtain ⟨ys, hys⟩ := List.getLast?_eq_some_iff.mp hgl
    rw [hys, show c :: (ys ++ [p]) = (c :: ys) ++ [p] from rfl]
    exact List.getLast?_concat _

/-- Conversely, pushing a qualifying occurrence that does not start at the
current position into the tail of the scan. -/
lemma OccAt_tail (c : Char) (cs' s pre' post : List Char) (lp : Char)
    (hcs' : cs' = pre' ++ s ++ post) (hslen : 9 ≤ s.length)
    (hdig : ∀ x ∈ s, x.isDigit = true)
    (hgl : (c :: pre').getLast? = some lp) (hlw : isWordChar lp = false)
    (hpost : post = [] ∨ ∃ q, post.head? = some q ∧ isWordChar q = false) :
    OccAt (isWordChar c) cs' s := by
  refine ⟨pre', post, hcs', hslen, hdig, ?_, hpost⟩
  cases pre' with
  | nil =>
      left
      simp only [List.getLast?_singleton, Option.some.injEq] at hgl
      exact ⟨rfl, by rw [hgl]; exact hlw⟩
  | cons y ys =>
      right
      exact ⟨lp, by rw [← List.getLast?_cons_cons]; exact hgl, hlw⟩

lemma cardScanF_sound :
    ∀ (fuel : Nat) (prevW : Bool) (cs : List Char), cs.length ≤ fuel →
      ∀ s ∈ cardScanF fuel prevW cs, OccAt prevW cs s := by
  intro fuel
  induction fuel with
  | zero =>
      intro prevW cs hlen s hs
      simp [cardScanF] at hs
  | succ f ih =>
      intro prevW cs hlen s hs
      cases cs with
      | nil => simp [cardScanF] at hs
      | cons c cs' =>
          have hlen' : cs'.length ≤ f := by
            simp only [List.length_cons] at hlen
            omega
          simp only [cardScanF] at hs
          split at hs
          · rename_i hb
            split at hs
            · rename_i hc
              rcases List.mem_cons.mp hs with hs | hs
              · subst hs
                obtain ⟨hb1, hb2⟩ := Bool.and_eq_true_iff.mp hb
                obtain ⟨hc1, hc2⟩ := Bool.and_eq_true_iff.mp hc
                refine ⟨[], cs'.dropWhile Char.isDigit, ?_, ?_, ?_, ?_, ?_⟩
                · simp [List.takeWhile_append_dropWhile]
                · exact of_decide_eq_true hc1
                · intro x hx
                  rcases List.mem_cons.mp hx with hx | hx
                  · subst hx; exact hb2
                  · exact List.mem_takeWhile_imp hx
                · exact Or.inl ⟨rfl, by simpa using hb1⟩
                · cases hdw : cs'.dropWhile Char.isDigit with
                  | nil => exact Or.inl rfl
                  | cons r rt =>
                      right
                      refine ⟨r, by simp, ?_⟩
                      rw [hdw] at hc2
                      simpa using hc2
              · have hrl : (cs'.dropWhile Char.isDigit).length ≤ f :=
                  Nat.le_trans (length_dropWhile_le _ _) hlen'
                obtain ⟨pre, post, hsplit, hslen, hdig, hpre, hpost⟩ :=
                  ih true (cs'.dropWhile Char.isDigit) hrl s hs
                rcases hpre with ⟨_, hfalse⟩ | ⟨p, hgl, hpw⟩
                · exact absurd hfalse (by simp)
                · refine ⟨(c :: cs'.takeWhile Char.isDigit) ++ pre, post, ?_, hslen, hdig,
                    ?_, hpost⟩
                  · have hcs : c :: cs' =
                        (c :: cs'.takeWhile Char.isDigit) ++ cs'.dropWhile Char.isDigit := by
                      simp [List.takeWhile_append_dropWhile]
                    rw [hcs, hsplit]
                    simp [List.append_assoc]
                  · right
                    refine ⟨p, ?_, hpw⟩
                    rw [List.getLast?_append, hgl]
                    rfl
            · rename_i hc
              exact OccAt_cons_lift c cs' s prevW (ih (isWordChar c) cs' hlen' s hs)
          · rename_i hb
            exact OccAt_cons_lift c cs' s prevW (ih (isWordChar c) cs' hlen' s hs)

lemma cardScanF_complete :
    ∀ (fuel : Nat) (prevW : Bool) (cs : List Char), cs.length ≤ fuel →
      ∀ s, OccAt prevW cs s → s ∈ cardScanF fuel prevW cs := by
  intro fuel
  induction fuel with
  | zero =>
      intro prevW cs hlen s hocc
      obtain ⟨pre, post, hsplit, hslen, _, _, _⟩ := hocc
      have hnil : cs = [] := List.length_eq_zero.mp (Nat.le_zero.mp hlen)
      subst hnil
      have h1 := List.append_eq_nil.mp hsplit.symm
      have h2 := List.append_eq_nil.mp h1.1
      rw [h2.2] at hslen
      simp at hslen
  | succ f ih =>
      intro prevW cs hlen s hocc
      obtain ⟨pre, post, hsplit, hslen, hdig, hpre, hpost⟩ := hocc
      cases cs with
      | nil =>
          have h1 := List.append_eq_nil.mp hsplit.symm
          have h2 := List.append_eq_nil.mp h1.1
          rw [h2.2] at hslen
          simp at hslen
      | cons c cs' =>
          have hlen' : cs'.length ≤ f := by
            simp only [List.length_cons] at hlen
            omega
          cases pre with
          | nil =>
              rcases hpre with ⟨_, hpw⟩ | ⟨p, hgl, _⟩
              · subst hpw
                cases s with
                | nil => simp at hslen
                | cons s0 s' =>
                    simp only [List.nil_append, List.cons_append, List.cons.injEq] at hsplit
                    obtain ⟨hc0, hcs'⟩ := hsplit
                    subst hc0
                    have hcdig : c.isDigit = true := hdig c (List.mem_cons_self _ _)
                    have hsdig : ∀ x ∈ s', x.isDigit = true :=
                      fun x hx => hdig x (List.mem_cons_of_mem _ hx)
                    rcases hpost with hpe | ⟨q, hq, hqw⟩
                    · subst hpe
                      rw [List.append_nil] at hcs'
                      rw [hcs']
                      have htw : s'.takeWhile Char.isDigit = s' :=
                        List.takeWhile_eq_self_iff.mpr hsdig
                      have hdw : s'.dropWhile Char.isDigit = [] :=
                        List.dropWhile_eq_nil_iff.mpr hsdig
                      have h8 : 8 ≤ s'.length := by
                        simp only [List.length_cons] at hslen
                        omega
                      simp [cardScanF, htw, hdw, hcdig]
                      rw [if_pos h8]
                      exact List.mem_cons_self _ _
                    · cases post with
                      | nil => simp at hq
                      | cons a post' =>
                          simp only [List.head?_cons, Option.some.injEq] at hq
                          subst hq
                          have hqnd : a.isDigit = false := notWord_notDigit a hqw
                          rw [hcs']
                          have hta := takeWhile_all_append Char.isDigit s' (a :: post') hsdig
                          have htw : (s' ++ a :: post').takeWhile Char.isDigit = s' := by
                            rw [hta.1]
                            simp [List.takeWhile_cons, hqnd]
                          have hdw : (s' ++ a :: post').dropWhile Char.isDigit = a :: post' := by
                            rw [hta.2]
                            simp [List.dropWhile_cons, hqnd]
                          have h8 : 8 ≤ s'.length := by
                            simp only [List.length_cons] at hslen
                            omega
                          simp [cardScanF, htw, hdw, hcdig, hqw]
                          rw [if_pos h8]
                          exact List.mem_cons_self _ _
              · simp at hgl
          | cons p0 pre' =>
              simp only [List.cons_append, List.cons.injEq, List.append_assoc] at hsplit
              obtain ⟨hcp, hcs'⟩ := hsplit
              subst hcp
              rcases hpre with ⟨habs, _⟩ | ⟨lp, hgl, hlw⟩
              · exact absurd habs (by simp)
              have hcs'' : cs' = pre' ++ s ++ post := by
                rw [hcs', List.append_assoc]
              have htail : OccAt (isWordChar c) cs' s :=
                OccAt_tail c cs' s pre' post lp hcs'' hslen hdig hgl hlw hpost
              simp only [cardScanF]
              split
              · rename_i hb
                split
                · rename_i hcnd
                  obtain ⟨hb1, hb2⟩ := Bool.and_eq_true_iff.mp hb
                  have hpre'ne : pre' ≠ [] := by
                    intro hnil
                    subst hnil
                    simp only [List.getLast?_singleton, Option.some.injEq] at hgl
                    rw [← hgl] at hlw
                    rw [digit_isWord c hb2] at hlw
                    exact absurd hlw (by simp)
                  have hgl' : pre'.getLast? = some lp := by
                    obtain ⟨y, ys, hyy⟩ := List.exists_cons_of_ne_nil hpre'ne
                    rw [hyy]
                    rw [hyy] at hgl
                    rw [← List.getLast?_cons_cons]
                    exact hgl
                  obtain ⟨mid, hmid⟩ := List.getLast?_eq_some_iff.mp hgl'
                  have hlpnd : lp.isDigit = false := notWord_notDigit lp hlw
                  have hsplit2 : cs' = mid ++ lp :: (s ++ post) := by
                    rw [hcs'', hmid]
                    simp [List.append_assoc]
                  have hdw : cs'.dropWhile Char.isDigit =
                      mid.dropWhile Char.isDigit ++ lp :: (s ++ post) := by
                    rw [hsplit2]
                    exact (takeWhile_stop Char.isDigit mid lp (s ++ post) hlpnd).2
                  have hocc2 : OccAt true (cs'.dropWhile Char.isDigit) s := by
                    refine ⟨mid.dropWhile Char.isDigit ++ [lp], post, ?_, hslen, hdig, ?_, hpost⟩
                    · rw [hdw]
                      simp [List.append_assoc]
                    · exact Or.inr ⟨lp, List.getLast?_concat _, hlw⟩
                  have hrl : (cs'.dropWhile Char.isDigit).length ≤ f :=
                    Nat.le_trans (length_dropWhile_le _ _) hlen'
                  exact List.mem_cons_of_mem _ (ih true _ hrl s hocc2)
                · exact ih (isWordChar c) cs' hlen' s htail
              · exact ih (isWordChar c) cs' hlen' s htail

lemma pyMaxFold_mem :
    ∀ (xs : List (List Char)) (b : List Char),
      xs.foldl (fun b y => if b.length < y.length then y else b) b = b ∨
      xs.foldl (fun b y => if b.length < y.length then y else b) b ∈ xs := by
  intro xs
  induction xs with
  | nil => intro b; exact Or.inl rfl
  | cons x xs ih =>
      intro b
      rcases ih (if b.length < x.length then x else b) with h | h
      · rw [List.foldl_cons, h]
        split
        · exact Or.inr (List.mem_cons_self _ _)
        · exact Or.inl rfl
      · exact Or.inr (List.mem_cons_of_mem _ (by rw [List.foldl_cons]; exact h))

lemma pyMaxFold_ge :
    ∀ (xs : List (List Char)) (b : List Char),
      b.length ≤ (xs.foldl (fun b y => if b.length < y.length then y else b) b).length ∧
      ∀ y ∈ xs, y.length ≤ (xs.foldl (fun b y => if b.length < y.length then y else b) b).length := by
  intro xs
  induction xs with
  | nil =>
      intro b
      exact ⟨Nat.le_refl _, by simp⟩
  | cons x xs ih =>
      intro b
      have ihx := ih (if b.length < x.length then x else b)
      have hb : b.length ≤ (if b.length < x.length then x else b).length := by
        split
        · omega
        · exact Nat.le_refl _
      have hx : x.length ≤ (if b.length < x.length then x else b).length := by
        split
        · exact Nat.le_refl _
        · omega
      refine ⟨Nat.le_trans hb (by rw [List.foldl_cons]; exact ihx.1), ?_⟩
      intro y hy
      rcases List.mem_cons.mp hy with hy | hy
      · subst hy
        exact Nat.le_trans hx (by rw [List.foldl_cons]; exact ihx.1)
      · rw [List.foldl_cons]
        exact ihx.2 y hy

lemma pyMaxByLen_mem (l : List (List Char)) (h : l ≠ []) : pyMaxByLen l ∈ l := by
  cases l with
  | nil => exact absurd rfl h
  | cons x xs =>
      rcases pyMaxFold_mem xs x with hm | hm
      · rw [pyMaxByLen, hm]
        exact List.mem_cons_self _ _
      · exact List.mem_cons_of_mem _ hm

lemma pyMaxByLen_ge (l : List (List Char)) (y : List Char) (hy : y ∈ l) :
    y.length ≤ (pyMaxByLen l).length := by
  cases l with
  | nil => simp at hy
  | cons x xs =>
      rcases List.mem_cons.mp hy with hy | hy
      · subst hy
        exact (pyMaxFold_ge xs y).1
      · exact (pyMaxFold_ge xs x).2 y hy

lemma isCardRun_iff_occAt (text s : List Char) :
    IsCardRun text s ↔ OccAt false text s := by
  constructor
  · rintro ⟨pre, post, h1, h2, h3, h4, h5⟩
    refine ⟨pre, post, h1, h2, h3, ?_, h5⟩
    rcases h4 with h4 | h4
    · exact Or.inl ⟨h4, rfl⟩
    · exact Or.inr h4
  · rintro ⟨pre, post, h1, h2, h3, h4, h5⟩
    refine ⟨pre, post, h1, h2, h3, ?_, h5⟩
    rcases h4 with ⟨h4, _⟩ | h4
    · exact Or.inl h4
    · exact Or.inr h4

lemma isCardRunD_iff_occD (text pre s post : List Char) :
    IsCardRunD text pre s post ↔ OccD false text pre s post := by
  unfold IsCardRunD OccD
  constructor
  · rintro ⟨h1, h2, h3, h4, h5⟩
    refine ⟨h1, h2, h3, ?_, h5⟩
    rcases h4 with h4 | h4
    · exact Or.inl ⟨h4, rfl⟩
    · exact Or.inr h4
  · rintro ⟨h1, h2, h3, h4, h5⟩
    refine ⟨h1, h2, h3, ?_, h5⟩
    rcases h4 with ⟨h4, _⟩ | h4
    · exact Or.inl h4
    · exact Or.inr h4

lemma isCardRun_of_isCardRunD (text pre s post : List Char)
    (h : IsCardRunD text pre s post) : IsCardRun text s :=
  ⟨pre, post, h.1, h.2.1, h.2.2.1, h.2.2.2.1, h.2.2.2.2⟩

/-- A positioned occurrence starting at the scanner's current position is
exactly the maximal digit run there, and forces the scanner's match
conditions. -/
lemma occD_head (prevW : Bool) (c : Char) (cs' t post : List Char)
    (h : OccD prevW (c :: cs') [] t post) :
    prevW = false ∧ c.isDigit = true ∧
    t = c :: cs'.takeWhile Char.isDigit ∧ post = cs'.dropWhile Char.isDigit := by
  obtain ⟨hsplit, hslen, hdig, hpre, hpost⟩ := h
  have hpw : prevW = false := by
    rcases hpre with ⟨_, hpw⟩ | ⟨p, hgl, _⟩
    · exact hpw
    · simp at hgl
  cases t with
  | nil => simp at hslen
  | cons t0 t' =>
      simp only [List.nil_append, List.cons_append, List.cons.injEq] at hsplit
      obtain ⟨hct, hcs'⟩ := hsplit
      subst hct
      have hcdig : c.isDigit = true := hdig c (List.mem_cons_self _ _)
      have htdig : ∀ x ∈ t', x.isDigit = true :=
        fun x hx => hdig x (List.mem_cons_of_mem _ hx)
      rcases hpost with hpe | ⟨q, hq, hqw⟩
      · subst hpe
        rw [List.append_nil] at hcs'
        refine ⟨hpw, hcdig, ?_, ?_⟩
        · rw [hcs', List.takeWhile_eq_self_iff.mpr htdig]
        · rw [hcs', List.dropWhile_eq_nil_iff.mpr htdig]
      · cases post with
        | nil => simp at hq
        | cons a post' =>
            simp only [List.head?_cons, Option.some.injEq] at hq
            subst hq
            have hand : a.isDigit = false := notWord_notDigit a hqw
            have hta := takeWhile_all_append Char.isDigit t' (a :: post') htdig
            refine ⟨hpw, hcdig, ?_, ?_⟩
            · rw [hcs', hta.1]
              simp [List.takeWhile_cons, hand]
            · rw [hcs', hta.2]
              simp [List.dropWhile_cons, hand]

lemma occD_cons_lift (prevW : Bool) (c : Char) (cs' pre t post : List Char)
    (h : OccD (isWordChar c) cs' pre t post) :
    OccD prevW (c :: cs') (c :: pre) t post := by
  obtain ⟨hsplit, hslen, hdig, hpre, hpost⟩ := h
  refine ⟨by rw [hsplit]; rfl, hslen, hdig, ?_, hpost⟩
  rcases hpre with ⟨hpe, hpw⟩ | ⟨p, hgl, hpw⟩
  · subst hpe
    exact Or.inr ⟨c, by simp, hpw⟩
  · right
    refine ⟨p, ?_, hpw⟩
    obtain ⟨ys, hys⟩ := List.getLast?_eq_some_iff.mp hgl
    rw [hys, show c :: (ys ++ [p]) = (c :: ys) ++ [p] from rfl]
    exact List.getLast?_concat _

lemma occD_cons_elim (prevW : Bool) (c p : Char) (cs' pre'' t post : List Char)
    (h : OccD prevW (c :: cs') (p :: pre'') t post) :
    p = c ∧ OccD (isWordChar c) cs' pre'' t post := by
  obtain ⟨hsplit, hslen, hdig, hpre, hpost⟩ := h
  simp only [List.cons_append, List.cons.injEq, List.append_assoc] at hsplit
  obtain ⟨hcp, hcs'⟩ := hsplit
  have hcs'' : cs' = pre'' ++ t ++ post := by rw [hcs', List.append_assoc]
  refine ⟨hcp.symm, hcs'', hslen, hdig, ?_, hpost⟩
  rcases hpre with ⟨habs, _⟩ | ⟨lp, hgl, hlw⟩
  · exact absurd habs (by simp)
  cases pre'' with
  | nil =>
      left
      refine ⟨rfl, ?_⟩
      simp only [List.getLast?_singleton, Option.some.injEq] at hgl
      rw [hcp, hgl]
      exact hlw
  | cons y ys =>
      right
      refine ⟨lp, ?_, hlw⟩
      rw [List.getLast?_cons_cons] at hgl
      exact hgl

lemma occD_match_lift (prevW : Bool) (c : Char) (cs' pre t post : List Char)
    (h : OccD true (cs'.dropWhile Char.isDigit) pre t post) :
    OccD prevW (c :: cs') ((c :: cs'.takeWhile Char.isDigit) ++ pre) t post := by
  obtain ⟨hsplit, hslen, hdig, hpre, hpost⟩ := h
  refine ⟨?_, hslen, hdig, ?_, hpost⟩
  · have hcs : c :: cs' =
        (c :: cs'.takeWhile Char.isDigit) ++ cs'.dropWhile Char.isDigit := by
      simp [List.takeWhile_append_dropWhile]
    rw [hcs, hsplit]
    simp [List.append_assoc]
  · rcases hpre with ⟨_, hff⟩ | ⟨p, hgl, hpw⟩
    · exact absurd hff (by simp)
    · right
      refine ⟨p, ?_, hpw⟩
      rw [List.getLast?_append, hgl]
      rfl

/-- A positioned occurrence that starts strictly after the scanner's current
position, at a position where the scanner matches a digit run, survives into
the scan's remainder; its prefix there is shorter by exactly the length of
the matched run. -/
lemma occD_match_push (prevW : Bool) (c : Char) (cs' t post : List Char) (p : Char)
    (pre'' : List Char) (h : OccD prevW (c :: cs') (p :: pre'') t post)
    (hb2 : c.isDigit = true) :
    ∃ pre₂, OccD true (cs'.dropWhile Char.isDigit) pre₂ t post ∧
      pre₂.length + (c :: cs'.takeWhile Char.isDigit).length = (p :: pre'').length := by
  obtain ⟨hsplit, hslen, hdig, hpre, hpost⟩ := h
  rcases hpre with ⟨habs, _⟩ | ⟨lp, hgl, hlw⟩
  · exact absurd habs (by simp)
  have hlpd : lp.isDigit = false := notWord_notDigit lp hlw
  obtain ⟨mid0, hmid0⟩ := List.getLast?_eq_some_iff.mp hgl
  simp only [List.cons_append, List.cons.injEq, List.append_assoc] at hsplit
  obtain ⟨hcp, hcs'⟩ := hsplit
  cases mid0 with
  | nil =>
      exfalso
      simp only [List.nil_append, List.cons.injEq] at hmid0
      rw [hcp, hmid0.1] at hb2
      rw [hb2] at hlpd
      exact absurd hlpd (by simp)
  | cons m0 mid =>
      simp only [List.cons_append, List.cons.injEq] at hmid0
      obtain ⟨hpm, hpre''⟩ := hmid0
      have hcs'2 : cs' = mid ++ lp :: (t ++ post) := by
        rw [hcs', hpre'']
        simp [List.append_assoc]
      have hts := takeWhile_stop Char.isDigit mid lp (t ++ post) hlpd
      have htw : cs'.takeWhile Char.isDigit = mid.takeWhile Char.isDigit := by
        rw [hcs'2]
        exact (takeWhile_stop Char.isDigit mid lp (t ++ post) hlpd).1
      have hdw : cs'.dropWhile Char.isDigit =
          mid.dropWhile Char.isDigit ++ lp :: (t ++ post) := by
        rw [hcs'2]
        exact (takeWhile_stop Char.isDigit mid lp (t ++ post) hlpd).2
      refine ⟨mid.dropWhile Char.isDigit ++ [lp], ⟨?_, hslen, hdig, ?_, hpost⟩, ?_⟩
      · rw [hdw]
        simp [List.append_assoc]
      · exact Or.inr ⟨lp, List.getLast?_concat _, hlw⟩
      · have hsum := congrArg List.length (List.takeWhile_append_dropWhile Char.isDigit mid)
        rw [List.length_append] at hsum
        simp only [List.length_append, List.length_cons, htw, hpre'']
        omega

/-- Ordered soundness of the scan: any element of the scan list has a
positioned occurrence such that every qualifying occurrence starting
strictly earlier in the text appears strictly earlier in the scan list. -/
lemma cardScanF_order :
    ∀ (fuel : Nat) (prevW : Bool) (cs : List Char), cs.length ≤ fuel →
      ∀ (l1 : List (List Char)) (s : List Char) (l2 : List (List Char)),
        cardScanF fuel prevW cs = l1 ++ s :: l2 →
        ∃ pre post, OccD prevW cs pre s post ∧
          ∀ pre' t post', OccD prevW cs pre' t post' →
            pre'.length < pre.length → t ∈ l1 := by
  intro fuel
  induction fuel with
  | zero =>
      intro prevW cs hlen l1 s l2 hsplit
      rw [show cardScanF 0 prevW cs = [] from rfl] at hsplit
      cases l1 <;> simp at hsplit
  | succ f ih =>
      intro prevW cs hlen l1 s l2 hsplit
      cases cs with
      | nil =>
          simp only [cardScanF] at hsplit
          cases l1 <;> simp at hsplit
      | cons c cs' =>
          have hlen' : cs'.length ≤ f := by
            simp only [List.length_cons] at hlen
            omega
          simp only [cardScanF] at hsplit
          split at hsplit
          · rename_i hb
            split at hsplit
            · rename_i hcnd
              obtain ⟨hb1, hb2⟩ := Bool.and_eq_true_iff.mp hb
              obtain ⟨hc1, hc2⟩ := Bool.and_eq_true_iff.mp hcnd
              cases l1 with
              | nil =>
                  simp only [List.nil_append, List.cons.injEq] at hsplit
                  obtain ⟨hsr, _⟩ := hsplit
                  refine ⟨[], cs'.dropWhile Char.isDigit, ⟨?_, ?_, ?_, ?_, ?_⟩, ?_⟩
                  · rw [← hsr]
                    simp [List.takeWhile_append_dropWhile]
                  · rw [← hsr]
                    exact of_decide_eq_true hc1
                  · rw [← hsr]
                    intro x hx
                    rcases List.mem_cons.mp hx with hx | hx
                    · subst hx; exact hb2
                    · exact List.mem_takeWhile_imp hx
                  · exact Or.inl ⟨rfl, by simpa using hb1⟩
                  · cases hdw : cs'.dropWhile Char.isDigit with
                    | nil => exact Or.inl rfl
                    | cons r rt =>
                        right
                        refine ⟨r, by simp, ?_⟩
                        rw [hdw] at hc2
                        simpa using hc2
                  · intro pre' t post' _ hlt
                    simp at hlt
              | cons x l1' =>
                  simp only [List.cons_append, List.cons.injEq] at hsplit
                  obtain ⟨hxr, hrest⟩ := hsplit
                  have hrl : (cs'.dropWhile Char.isDigit).length ≤ f :=
                    Nat.le_trans (length_dropWhile_le _ _) hlen'
                  obtain ⟨pre₀, post₀, hocc₀, hord₀⟩ := ih true _ hrl l1' s l2 hrest
                  refine ⟨(c :: cs'.takeWhile Char.isDigit) ++ pre₀, post₀,
                    occD_match_lift prevW c cs' pre₀ s post₀ hocc₀, ?_⟩
                  intro pre' t post' hocc' hlt
                  cases pre' with
                  | nil =>
                      obtain ⟨_, _, ht, _⟩ := occD_head prevW c cs' t post' hocc'
                      rw [ht, hxr]
                      exact List.mem_cons_self _ _
                  | cons p pre'' =>
                      obtain ⟨pre₂, hocc₂, hlen₂⟩ :=
                        occD_match_push prevW c cs' t post' p pre'' hocc' hb2
                      have hlt₂ : pre₂.length < pre₀.length := by
                        rw [List.length_append] at hlt
                        omega
                      exact List.mem_cons_of_mem _ (hord₀ pre₂ t post' hocc₂ hlt₂)
            · rename_i hcnd
              obtain ⟨pre₀, post₀, hocc₀, hord₀⟩ := ih (isWordChar c) cs' hlen' l1 s l2 hsplit
              refine ⟨c :: pre₀, post₀, occD_cons_lift prevW c cs' pre₀ s post₀ hocc₀, ?_⟩
              intro pre' t post' hocc' hlt
              cases pre' with
              | nil =>
                  exfalso
                  obtain ⟨hpw, hcd, ht, hpo⟩ := occD_head prevW c cs' t post' hocc'
                  apply hcnd
                  simp only [Bool.and_eq_true, decide_eq_true_eq]
                  constructor
                  · rw [← ht]
                    exact hocc'.2.1
                  · rcases hocc'.2.2.2.2 with hpe | ⟨q, hq, hqw⟩
                    · rw [← hpo, hpe]
                    · rw [← hpo]
                      cases post' with
                      | nil => simp at hq
                      | cons a rest =>
                          simp only [List.head?_cons, Option.some.injEq] at hq
                          subst hq
                          simpa using hqw
              | cons p pre'' =>
                  have helim := occD_cons_elim prevW c p cs' pre'' t post' hocc'
                  have hlt' : pre''.length < pre₀.length := by
                    simp only [List.length_cons] at hlt
                    omega
                  exact hord₀ pre'' t post' helim.2 hlt'
          · rename_i hb
            obtain ⟨pre₀, post₀, hocc₀, hord₀⟩ := ih (isWordChar c) cs' hlen' l1 s l2 hsplit
            refine ⟨c :: pre₀, post₀, occD_cons_lift prevW c cs' pre₀ s post₀ hocc₀, ?_⟩
            intro pre' t post' hocc' hlt
            cases pre' with
            | nil =>
                exfalso
                obtain ⟨hpw, hcd, _, _⟩ := occD_head prevW c cs' t post' hocc'
                apply hb
                rw [hpw]
                simp [hcd]
            | cons p pre'' =>
                have helim := occD_cons_elim prevW c p cs' pre'' t post' hocc'
                have hlt' : pre''.length < pre₀.length := by
                  simp only [List.length_cons] at hlt
                  omega
                exact hord₀ pre'' t post' helim.2 hlt'

/-- First-maximum property of the fold behind Python's `max(..., key=len)`:
every list element strictly before the returned one is strictly shorter. -/
lemma pyMaxFold_first :
    ∀ (xs : List (List Char)) (b : List Char),
      (xs.foldl (fun b y => if b.length < y.length then y else b) b = b ∧
        ∀ y ∈ xs, y.length ≤ b.length) ∨
      ∃ l1 l2, xs = l1 ++ (xs.foldl (fun b y => if b.length < y.length then y else b) b) :: l2 ∧
        b.length < (xs.foldl (fun b y => if b.length < y.length then y else b) b).length ∧
        ∀ y ∈ l1, y.length <
          (xs.foldl (fun b y => if b.length < y.length then y else b) b).length := by
  intro xs
  induction xs with
  | nil =>
      intro b
      exact Or.inl ⟨rfl, by simp⟩
  | cons x xs ih =>
      intro b
      rw [List.foldl_cons]
      by_cases hbx : b.length < x.length
      · rw [if_pos hbx]
        rcases ih x with ⟨hm, hall⟩ | ⟨l1, l2, hspl, hlt, hall⟩
        · right
          refine ⟨[], xs, ?_, ?_, by simp⟩
          · rw [hm]
            rfl
          · rw [hm]; exact hbx
        · right
          refine ⟨x :: l1, l2, ?_, ?_, ?_⟩
          · rw [List.cons_append, ← hspl]
          · omega
          · intro y hy
            rcases List.mem_cons.mp hy with hy | hy
            · subst hy; omega
            · exact hall y hy
      · rw [if_neg hbx]
        rcases ih b with ⟨hm, hall⟩ | ⟨l1, l2, hspl, hlt, hall⟩
        · left
          refine ⟨hm, ?_⟩
          intro y hy
          rcases List.mem_cons.mp hy with hy | hy
          · subst hy; omega
          · exact hall y hy
        · right
          refine ⟨x :: l1, l2, ?_, hlt, ?_⟩
          · rw [List.cons_append, ← hspl]
          · intro y hy
            rcases List.mem_cons.mp hy with hy | hy
            · subst hy; omega
            · exact hall y hy

lemma pyMaxByLen_first (l : List (List Char)) (h : l ≠ []) :
    ∃ l1 l2, l = l1 ++ (pyMaxByLen l) :: l2 ∧
      ∀ y ∈ l1, y.length < (pyMaxByLen l).length := by
  cases l with
  | nil => exact absurd rfl h
  | cons x xs =>
      rcases pyMaxFold_first xs x with ⟨hm, _⟩ | ⟨l1, l2, hspl, hlt, hall⟩
      · refine ⟨[], xs, ?_, by simp⟩
        show x :: xs = [] ++ (xs.foldl _ x) :: xs
        rw [hm]
        rfl
      · refine ⟨x :: l1, l2, ?_, ?_⟩
        · show x :: xs = (x :: l1) ++ (xs.foldl _ x) :: l2
          rw [List.cons_append, ← hspl]
        · intro y hy
          rcases List.mem_cons.mp hy with hy | hy
          · subst hy; exact hlt
          · exact hall y hy

/-- C5, counterexample.  The text contains a run of nine contiguous digits,
but because the run is adjacent to a letter the word-boundary anchors of the
card-number pattern reject it: no card number is extracted. -/
theorem claim5_counterexample :
    (parse_back_side "a123456789").cardNumber = none ∧
    ("a123456789" : String).data = ['a'] ++ ("123456789" : String).data ++ [] ∧
    9 ≤ ("123456789" : String).data.length ∧
    (∀ c ∈ ("123456789" : String).data, c.isDigit = true) := by
  decide

/-- C5, amended.  Back-side extraction sets `cardNumber` to the longest run
of nine-or-more contiguous digits that is delimited by the text boundary or
a non-word character on both sides (the pattern's word-boundary anchors),
whenever such a run exists, with ties among runs of maximal length broken by
first occurrence (the stored run has an occurrence starting no later than
any other maximal-length qualifying occurrence); and `idNumber` is extracted
exactly as on the front side. -/
theorem claim5_back_card (text : String) (h : ∃ s, IsCardRun text.data s) :
    ∃ s pre post, (parse_back_side text).cardNumber = some (String.mk s) ∧
      IsCardRun text.data s ∧
      IsCardRunD text.data pre s post ∧
      (∀ t, IsCardRun text.data t → t.length ≤ s.length) ∧
      (∀ pre' t post', IsCardRunD text.data pre' t post' → t.length = s.length →
        pre.length ≤ pre'.length) ∧
      (parse_back_side text).idNumber = (parse_front_side text).idNumber := by
  obtain ⟨s₀, hs₀⟩ := h
  have hmem₀ : s₀ ∈ cardScan text.data :=
    cardScanF_complete text.data.length false text.data (Nat.le_refl _) s₀
      ((isCardRun_iff_occAt text.data s₀).mp hs₀)
  have hne : cardScan text.data ≠ [] := by
    intro hnil
    rw [hnil] at hmem₀
    exact absurd hmem₀ (List.not_mem_nil _)
  obtain ⟨l1, l2, hsplitList, hshort⟩ := pyMaxByLen_first (cardScan text.data) hne
  obtain ⟨pre, post, hoccD, horder⟩ :=
    cardScanF_order text.data.length false text.data (Nat.le_refl _) l1
      (pyMaxByLen (cardScan text.data)) l2 hsplitList
  have hrunD : IsCardRunD text.data pre (pyMaxByLen (cardScan text.data)) post :=
    (isCardRunD_iff_occD _ _ _ _).mpr hoccD
  refine ⟨pyMaxByLen (cardScan text.data), pre, post, ?_,
    isCardRun_of_isCardRunD _ _ _ _ hrunD, hrunD, ?_, ?_, ?_⟩
  · cases hcards : cardScan text.data with
    | nil => exact absurd hcards hne
    | cons a l =>
        simp [parse_back_side, hcards]
  · intro t ht
    exact pyMaxByLen_ge _ t
      (cardScanF_complete text.data.length false text.data (Nat.le_refl _) t
        ((isCardRun_iff_occAt text.data t).mp ht))
  · intro pre' t post' htD htlen
    by_contra hlt
    push_neg at hlt
    have htmem : t ∈ l1 :=
      horder pre' t post' ((isCardRunD_iff_occD _ _ _ _).mp htD) hlt
    have := hshort t htmem
    omega
  · rfl

/-- Witness for C5 at a concrete input. -/
theorem claim5_back_card_witness :
    ∃ s pre post, (parse_back_side "123456789").cardNumber = some (String.mk s) ∧
      IsCardRun ("123456789" : String).data s ∧
      IsCardRunD ("123456789" : String).data pre s post ∧
      (∀ t, IsCardRun ("123456789" : String).data t → t.length ≤ s.length) ∧
      (∀ pre' t post', IsCardRunD ("123456789" : String).data pre' t post' →
        t.length = s.length → pre.length ≤ pre'.length) ∧
      (parse_back_side "123456789").idNumber = (parse_front_side "123456789").idNumber :=
  claim5_back_card "123456789"
    ⟨("123456789" : String).data, [], [], by decide, by decide, by decide,
      Or.inl rfl, Or.inl rfl⟩

end BookingForms
